import Mathlib

/-!
# Verification of the lunch-splitter core (src/script.js)

A shallow embedding of the state store, allocation engine, serialization
and migration logic of the bill-splitting application, together with
proofs of the specified properties.

JavaScript numbers are modelled as rationals (`ℚ`); `parseFloat` results
that may be `NaN` are modelled as `Option ℚ` (`none` = `NaN`).  JS objects
keyed by person/item ids are modelled as association lists
`List (ℕ × ℚ)`; JS `Array.prototype.push`/`pop` on the undo stack are
modelled as list `cons`/head (top of the stack at the head).
-/

/-- Association-list lookup, first match wins (models reading
`obj[key]` on a JS object, whose keys are unique). -/
def pqLookup (k : ℕ) : List (ℕ × ℚ) → Option ℚ
  | [] => none
  | e :: rest => if e.1 = k then some e.2 else pqLookup k rest

/-- Models `obj[key] = v` on a JS object: overwrite the entry if the key is
present, otherwise append a new entry. -/
def setPQ (m : List (ℕ × ℚ)) (k : ℕ) (v : ℚ) : List (ℕ × ℚ) :=
  if (pqLookup k m).isSome then
    m.map (fun e => if e.1 = k then (k, v) else e)
  else m ++ [(k, v)]

/-- The values of a quantity map (models `Object.values`). -/
def pqValues (m : List (ℕ × ℚ)) : List ℚ := m.map (fun e => e.2)

/-- A person: `{ id, name }` (src/script.js line 168). -/
structure Person where
  id : ℕ
  name : String
deriving DecidableEq, Repr

/-- An item: `{ id, name, price, personQuantities }`
(src/script.js lines 252-257). -/
structure Item where
  id : ℕ
  name : String
  price : ℚ
  personQuantities : List (ℕ × ℚ)
deriving DecidableEq, Repr

/-- An undo-stack entry (src/script.js lines 191-197 and 274-277):
either a removed person together with the `(itemId, quantity)` pairs that
were removed with them, or a removed item snapshot. -/
inductive UndoEntry where
  | person (p : Person) (itemQuantities : List (ℕ × ℚ))
  | item (it : Item)
deriving DecidableEq, Repr

/-- The application state (src/script.js lines 2-11). -/
structure AppState where
  people : List Person
  items : List Item
  nextPersonId : ℕ
  nextItemId : ℕ
  tax : ℚ
  tip : ℚ
  isTransposed : Bool
  undoStack : List UndoEntry
deriving DecidableEq, Repr

/-- The initial state (src/script.js lines 2-11). -/
def initialState : AppState :=
  { people := [], items := [], nextPersonId := 0, nextItemId := 0,
    tax := 0, tip := 10, isTransposed := false, undoStack := [] }

/-- JS `.toLowerCase()` (modelled on the Latin alphabet via
`Char.toLower`), defined structurally on the character list. -/
def jsToLower (s : String) : String := String.mk (s.data.map Char.toLower)

/-- JS `.trim()`: drop leading and trailing whitespace, defined
structurally on the character list. -/
def jsTrim (s : String) : String :=
  String.mk (((s.data.dropWhile Char.isWhitespace).reverse.dropWhile Char.isWhitespace).reverse)

/-- `state.people.find(p => p.id === personId)`. -/
def findPerson (pid : ℕ) : List Person → Option Person
  | [] => none
  | p :: rest => if p.id = pid then some p else findPerson pid rest

/-- `state.items.find(i => i.id === itemId)`. -/
def findItem (itemId : ℕ) : List Item → Option Item
  | [] => none
  | it :: rest => if it.id = itemId then some it else findItem itemId rest

/-- Apply `f` to the first item with the given id (models finding an item
by id and mutating it in place). -/
def updateFirstItem (itemId : ℕ) (f : Item → Item) : List Item → List Item
  | [] => []
  | it :: rest =>
      if it.id = itemId then f it :: rest
      else it :: updateFirstItem itemId f rest

/-- Set the name of the first person with the given id (models
`state.people[personIndex].name = newName`). -/
def updateFirstPersonName (pid : ℕ) (newName : String) : List Person → List Person
  | [] => []
  | p :: rest =>
      if p.id = pid then { p with name := newName } :: rest
      else p :: updateFirstPersonName pid newName rest

/-- `handleAddPerson` (src/script.js lines 161-174), with the text field
contents passed as `raw`. -/
def handleAddPerson (raw : String) (s : AppState) : AppState :=
  let name := jsTrim raw
  if name = "" then s
  else if s.people.any (fun p => jsToLower p.name = jsToLower name) then s
  else { s with
         people := s.people ++ [{ id := s.nextPersonId, name := name }],
         nextPersonId := s.nextPersonId + 1 }

/-- `handleAddItem` (src/script.js lines 243-267); `rawPrice` is the
`parseFloat` of the price field (`none` = `NaN`). -/
def handleAddItem (rawName : String) (rawPrice : Option ℚ) (s : AppState) : AppState :=
  let name := jsTrim rawName
  match rawPrice with
  | none => s
  | some price =>
    if name ≠ "" ∧ 0 < price then
      if s.items.any (fun i => jsToLower i.name = jsToLower name) then s
      else { s with
             items := s.items ++ [{ id := s.nextItemId, name := name, price := price,
                                    personQuantities := [] }],
             nextItemId := s.nextItemId + 1 }
    else s

/-- The `(itemId, quantity)` pairs captured for undo when deleting a person
(src/script.js lines 181-189); an entry is captured when
`item.personQuantities[personId]` is truthy, i.e. present and nonzero. -/
def snapshotQuantities (pid : ℕ) (items : List Item) : List (ℕ × ℚ) :=
  items.filterMap (fun it =>
    match pqLookup pid it.personQuantities with
    | some q => if q ≠ 0 then some (it.id, q) else none
    | none => none)

/-- `deletePerson` (src/script.js lines 176-209). -/
def deletePerson (pid : ℕ) (s : AppState) : AppState :=
  match findPerson pid s.people with
  | none => s
  | some person =>
    { s with
      undoStack := UndoEntry.person person (snapshotQuantities pid s.items) :: s.undoStack,
      people := s.people.filter (fun p => p.id ≠ pid),
      items := s.items.map (fun it =>
        { it with personQuantities := it.personQuantities.filter (fun e => e.1 ≠ pid) }) }

/-- `deleteItem` (src/script.js lines 269-283). -/
def deleteItem (itemId : ℕ) (s : AppState) : AppState :=
  match findItem itemId s.items with
  | none => s
  | some it =>
    { s with
      undoStack := UndoEntry.item it :: s.undoStack,
      items := s.items.filter (fun i => i.id ≠ itemId) }

/-- Restoring a deleted person's quantities during undo
(src/script.js lines 141-147). -/
def restoreQuantities (pid : ℕ) (iqs : List (ℕ × ℚ)) (items : List Item) : List Item :=
  iqs.foldl (fun its e =>
    updateFirstItem e.1 (fun it =>
      { it with personQuantities := setPQ it.personQuantities pid e.2 }) its) items

/-- `performUndo` (src/script.js lines 132-158). -/
def performUndo (s : AppState) : AppState :=
  match s.undoStack with
  | [] => s
  | action :: rest =>
    match action with
    | UndoEntry.person p iqs =>
        { s with undoStack := rest,
                 people := s.people ++ [p],
                 items := restoreQuantities p.id iqs s.items }
    | UndoEntry.item it =>
        { s with undoStack := rest, items := s.items ++ [it] }

/-- `updatePersonQuantity` (src/script.js lines 285-301); `raw` is the
`parseFloat` of the input field (`none` = `NaN`); `parseFloat(q) || 0`
becomes `raw.getD 0`. -/
def updatePersonQuantity (itemId pid : ℕ) (raw : Option ℚ) (s : AppState) : AppState :=
  match findItem itemId s.items with
  | none => s
  | some _ =>
    let numQuantity := raw.getD 0
    let upd : Item → Item := fun it =>
      if 0 < numQuantity then
        { it with personQuantities := setPQ it.personQuantities pid numQuantity }
      else
        { it with personQuantities := it.personQuantities.filter (fun e => e.1 ≠ pid) }
    { s with items := updateFirstItem itemId upd s.items }

/-- `splitEvenly` (src/script.js lines 303-315). -/
def splitEvenly (itemId : ℕ) (s : AppState) : AppState :=
  match findItem itemId s.items with
  | none => s
  | some _ =>
    if s.people = [] then s
    else
      let upd : Item → Item := fun it =>
        { it with personQuantities := s.people.map (fun p => (p.id, (1 : ℚ))) }
      { s with items := updateFirstItem itemId upd s.items }

/-- `clearAllQuantities` (src/script.js lines 317-325). -/
def clearAllQuantities (itemId : ℕ) (s : AppState) : AppState :=
  match findItem itemId s.items with
  | none => s
  | some _ =>
    let upd : Item → Item := fun it => { it with personQuantities := [] }
    { s with items := updateFirstItem itemId upd s.items }

/-- The save path of `editPersonName` (src/script.js lines 225-236):
trim the edited text, and update the name only when it is nonempty and
differs from the original. -/
def editPersonSave (pid : ℕ) (raw : String) (s : AppState) : AppState :=
  match findPerson pid s.people with
  | none => s
  | some person =>
    let newName := jsTrim raw
    if newName ≠ "" ∧ newName ≠ person.name then
      { s with people := updateFirstPersonName pid newName s.people }
    else s

/-- `clearState` (src/script.js lines 1014-1043) resets every state field
to its initial value. -/
def clearState (_s : AppState) : AppState := initialState

/-! ## Allocation engine (`calculateAndRenderSplit`, src/script.js lines 539-570 and 735-742) -/

/-- `Object.values(item.personQuantities).reduce((sum, qty) => sum + (parseFloat(qty) || 0), 0)`
(src/script.js lines 554-557).  The stored values are numbers, so
`parseFloat(qty) || 0` is the identity on them in the rational model. -/
def itemTotalQty (it : Item) : ℚ := (pqValues it.personQuantities).sum

/-- `personTotals.find(p => p.id === parseInt(personId))` followed by a
mutation of its `subtotal` field: apply `f` to the subtotal of the first
person with the given id. -/
def updateSubtotal (pid : ℕ) (f : ℚ → ℚ) : List (Person × ℚ) → List (Person × ℚ)
  | [] => []
  | e :: rest =>
      if e.1.id = pid then (e.1, f e.2) :: rest
      else e :: updateSubtotal pid f rest

/-- Processing of a single item inside the main loop of
`calculateAndRenderSplit` (src/script.js lines 552-568): when the item's
total assigned quantity is positive, each map entry with positive quantity
whose person is found adds `quantity * price / total` to that person's
subtotal. -/
def accumItem (pt : List (Person × ℚ)) (it : Item) : List (Person × ℚ) :=
  let totalQuantities := itemTotalQty it
  if 0 < totalQuantities then
    let pricePerUnit := it.price / totalQuantities
    it.personQuantities.foldl (fun acc e =>
      if 0 < e.2 then updateSubtotal e.1 (fun sub => sub + e.2 * pricePerUnit) acc
      else acc) pt
  else pt

/-- The computed breakdown: per-person subtotals plus the bill summary
(src/script.js lines 735-742). -/
structure Breakdown where
  personTotals : List (Person × ℚ)
  billSubtotal : ℚ
  billTax : ℚ
  billTip : ℚ
  grandTotal : ℚ
deriving DecidableEq, Repr

/-- The pure computation of `calculateAndRenderSplit`
(src/script.js lines 539-570 and 735-742).  With no people the function
renders a prompt and computes nothing (`none`).  The single source loop
accumulates person subtotals and the bill subtotal; it is split here into
two folds over the same item list. -/
def calculateSplit (s : AppState) : Option Breakdown :=
  if s.people = [] then none
  else
    let taxRate := s.tax / 100
    let tipRate := s.tip / 100
    let pt := s.items.foldl accumItem (s.people.map (fun p => (p, (0 : ℚ))))
    let totalBillSubtotal := s.items.foldl (fun acc it => acc + it.price) 0
    let grandTotal := pt.foldl (fun acc e => acc + (e.2 + e.2 * taxRate + e.2 * tipRate)) 0
    some { personTotals := pt,
           billSubtotal := totalBillSubtotal,
           billTax := totalBillSubtotal * taxRate,
           billTip := totalBillSubtotal * tipRate,
           grandTotal := grandTotal }

/-! ## Shuffle (`shuffleQuantities`, src/script.js lines 327-382)

`Math.random()` draws are supplied as a stream `rand : ℕ → ℚ` of values
in `[0, 1)`, consumed in call order; every function threads the index of
the next unused draw. -/

/-- `Math.round(x)`, i.e. `⌊x + 1/2⌋`. -/
def jsRound (q : ℚ) : ℤ := ⌊q + 1 / 2⌋

/-- Rounding to 2 decimal places: `Math.round(qty * 100) / 100`
(src/script.js line 373). -/
def round2 (q : ℚ) : ℚ := (jsRound (q * 100) : ℚ) / 100

/-- `Math.floor` of a nonnegative rational, as a natural number (used for
the Fisher-Yates index `Math.floor(Math.random() * (i + 1))`). -/
def ratFloorNat (q : ℚ) : ℕ := (⌊q⌋).toNat

/-- Swap the entries at positions `a` and `b`
(`[arr[i], arr[j]] = [arr[j], arr[i]]`, src/script.js line 363). -/
def listSwap (l : List ℚ) (a b : ℕ) : List ℚ :=
  let x := l.getD a 0
  let y := l.getD b 0
  (l.set a y).set b x

/-- The random-quantity generation loop (src/script.js lines 345-358):
`n` draws of `Math.random() * remaining` are pushed, each subtracted from
the remaining budget, and the final remainder is pushed last.  Returns the
generated list and the next unused draw index. -/
def genQtys (rand : ℕ → ℚ) : ℕ → ℕ → ℚ → List ℚ × ℕ
  | k, 0, remaining => ([remaining], k)
  | k, n + 1, remaining =>
      let randomQty := rand k * remaining
      let res := genQtys rand (k + 1) n (remaining - randomQty)
      (randomQty :: res.1, res.2)

/-- The Fisher-Yates loop (src/script.js lines 361-364) for indices
`i+1, i, ..., 1` (the argument is the current index minus one). -/
def fyAux (rand : ℕ → ℚ) : ℕ → ℕ → List ℚ → List ℚ × ℕ
  | k, 0, l => (l, k)
  | k, i + 1, l =>
      let j := ratFloorNat (rand k * (i + 2))
      fyAux rand (k + 1) i (listSwap l (i + 1) j)

/-- Fisher-Yates shuffle of the whole list (`for i = length-1; i > 0; i--`). -/
def fyShuffle (rand : ℕ → ℚ) (k : ℕ) (l : List ℚ) : List ℚ × ℕ :=
  match l.length with
  | 0 => (l, k)
  | n + 1 => fyAux rand k n l

/-- The assignment loop (src/script.js lines 367-375): person at index
`idx` receives `randomQuantities[idx]`, kept (rounded to 2 decimals) only
when above the `0.01` threshold. -/
def assignQtys (qs : List ℚ) : ℕ → List Person → List (ℕ × ℚ)
  | _, [] => []
  | idx, p :: ps =>
      let qty := qs.getD idx 0
      (if qty > 1 / 100 then [(p.id, round2 qty)] else []) ++ assignQtys qs (idx + 1) ps

/-- Shuffling of a single item (body of the `state.items.forEach` in
src/script.js lines 334-376). -/
def shuffleItem (rand : ℕ → ℚ) (people : List Person) (k : ℕ) (it : Item) : Item × ℕ :=
  let totalQuantity := itemTotalQty it
  if totalQuantity = 0 then (it, k)
  else
    let gen := genQtys rand k (people.length - 1) totalQuantity
    let shuffled := fyShuffle rand gen.2 gen.1
    ({ it with personQuantities := assignQtys shuffled.1 0 people }, shuffled.2)

/-- Shuffle every item in order, threading the draw stream. -/
def shuffleItems (rand : ℕ → ℚ) (people : List Person) : ℕ → List Item → List Item × ℕ
  | k, [] => ([], k)
  | k, it :: rest =>
      let r := shuffleItem rand people k it
      let rs := shuffleItems rand people r.2 rest
      (r.1 :: rs.1, rs.2)

/-- `shuffleQuantities` (src/script.js lines 327-382). -/
def shuffleQuantities (rand : ℕ → ℚ) (s : AppState) : AppState :=
  if s.people = [] ∨ s.items = [] then s
  else { s with items := (shuffleItems rand s.people 0 s.items).1 }

/-! ## Legacy migration (`loadState`, src/script.js lines 951-983) -/

/-- An item as it may arrive from persisted or imported data, possibly in
one of the legacy sharing encodings.  `none` models an absent (undefined)
field; note that an empty object or array is truthy in JS, so presence,
not emptiness, is what the migration tests. -/
structure LegacyItem where
  id : ℕ
  name : String
  price : ℚ
  personQuantities : Option (List (ℕ × ℚ))
  sharedBy : Option (List ℕ)
  personAmounts : Option (List (ℕ × ℚ))
deriving DecidableEq, Repr

/-- `amounts.length > 0 && amounts.every(amt => Math.abs(amt - amounts[0]) < 0.01)`
(src/script.js line 967). -/
def allEqualAmounts (am : List (ℕ × ℚ)) : Bool :=
  !am.isEmpty && am.all (fun e => |e.2 - (pqValues am).headD 0| < 1 / 100)

/-- Migration of a single loaded item (src/script.js lines 953-983).
An item with a `sharedBy` set and no quantity/amount map gets quantity 1
per sharer; an item with `personAmounts` and no quantity map gets
quantity 1 each when all amounts are equal within 0.01, and otherwise
`amount / totalAmount * amounts.length` each (or 1 when the total is not
positive).  The `personQuantities` of the result is the migrated map, the
already-present map, or empty when no sharing information exists. -/
def migrateItem (it : LegacyItem) : Item :=
  if it.sharedBy.isSome ∧ it.personQuantities = none ∧ it.personAmounts = none then
    { id := it.id, name := it.name, price := it.price,
      personQuantities := (it.sharedBy.getD []).map (fun pid => (pid, (1 : ℚ))) }
  else if it.personAmounts.isSome ∧ it.personQuantities = none then
    let am := it.personAmounts.getD []
    let amounts := pqValues am
    if allEqualAmounts am then
      { id := it.id, name := it.name, price := it.price,
        personQuantities := am.map (fun e => (e.1, (1 : ℚ))) }
    else
      let totalAmount := amounts.sum
      { id := it.id, name := it.name, price := it.price,
        personQuantities := am.map (fun e =>
          (e.1, if 0 < totalAmount then e.2 / totalAmount * amounts.length else 1)) }
  else
    { id := it.id, name := it.name, price := it.price,
      personQuantities := it.personQuantities.getD [] }

/-! ## Shareable URL encoding (src/script.js lines 780-820 and 845-916)

URL query parameters are modelled as an association list of
`(name, value)` pairs of character lists; `URLSearchParams.get` is
first-match lookup. -/

/-- `urlParams.get(k)`. -/
def getParam (k : String) : List (String × List Char) → Option (List Char)
  | [] => none
  | e :: rest => if e.1 = k then some e.2 else getParam k rest

/-- `str.split(sep)` for a single-character separator, JS semantics:
`splitOnChar c [] = [[]]` and separators delimit (possibly empty) fields. -/
def splitOnChar (c : Char) : List Char → List (List Char)
  | [] => [[]]
  | x :: xs =>
      if x = c then [] :: splitOnChar c xs
      else
        match splitOnChar c xs with
        | [] => [[x]]
        | f :: fs => (x :: f) :: fs

/-- `arr.join(sep)` for a single-character separator. -/
def joinChar (c : Char) : List (List Char) → List Char
  | [] => []
  | [f] => f
  | f :: fs => f ++ c :: joinChar c fs

/-- The character for a decimal digit. -/
def digitChar (d : ℕ) : Char := Char.ofNat (48 + d)

/-- The decimal digit denoted by a character. -/
def charToDigit (c : Char) : ℕ := c.toNat - 48

/-- Is the character a decimal digit? -/
def isDigitChar (c : Char) : Bool := '0' ≤ c && c ≤ '9'

/-- The decimal numeral of a natural number, most significant digit
first. -/
def natToChars (n : ℕ) : List Char :=
  if _h : n < 10 then [digitChar n]
  else natToChars (n / 10) ++ [digitChar (n % 10)]
decreasing_by exact Nat.div_lt_self (by omega) (by omega)

/-- Value of a most-significant-first digit string. -/
def digitsToNat (cs : List Char) : ℕ :=
  cs.foldl (fun a c => 10 * a + charToDigit c) 0

/-- The decimal numeral that JS number-to-string conversion produces for
the value `n / 100` (an integer number of cents): the integer part,
followed by the fractional digits with trailing zeros dropped. -/
def decimalStr (n : ℕ) : List Char :=
  let ip := n / 100
  let f := n % 100
  if f = 0 then natToChars ip
  else if f % 10 = 0 then natToChars ip ++ ['.', digitChar (f / 10)]
  else natToChars ip ++ ['.', digitChar (f / 10), digitChar (f % 10)]

/-- Does the rational have an exact representation in whole cents?  The
numeric values this application stores and serializes (prices, quantities
after 2-decimal rounding, tax/tip percentages) are of this shape. -/
def IsCent (q : ℚ) : Prop := (q * 100).den = 1

instance (q : ℚ) : Decidable (IsCent q) := by
  unfold IsCent
  infer_instance

/-- JS number-to-string conversion (template-literal coercion such as
`${item.price}`), modelled on rationals that are a whole number of
cents: the exact decimal numeral, with a leading minus sign when
negative. -/
def numToChars (q : ℚ) : List Char :=
  if q < 0 then '-' :: decimalStr (((-q) * 100).num.toNat)
  else decimalStr ((q * 100).num.toNat)

/-- The unsigned part of `parseFloat`: integer digits and an optional
fraction, `none` when no digit is found.  Trailing garbage after the
parsed prefix is ignored, as in JS. -/
def parseFloatUnsigned (cs : List Char) : Option ℚ :=
  let intPart := cs.takeWhile isDigitChar
  let afterInt := cs.dropWhile isDigitChar
  let fracPart :=
    if afterInt.head? = some '.' then afterInt.tail.takeWhile isDigitChar else []
  if intPart.isEmpty ∧ fracPart.isEmpty then none
  else some ((digitsToNat intPart : ℚ) + (digitsToNat fracPart : ℚ) / 10 ^ fracPart.length)

/-- `parseFloat`, modelled on fully numeric strings: an optional sign
followed by the unsigned grammar, `none` when no digit is found (`NaN`). -/
def parseFloatQ (cs : List Char) : Option ℚ :=
  match cs with
  | '-' :: t => (parseFloatUnsigned t).map (fun v => -v)
  | '+' :: t => parseFloatUnsigned t
  | _ => parseFloatUnsigned cs

/-- `Number(str)` restricted to its use as an array index
(`indices.split('-').map(Number)` in src/script.js line 901): a
nonempty all-digit string converts to the denoted natural number;
anything else is treated as an invalid index (the subsequent
`newState.items[itemIdx]` guard then skips the triple). -/
def jsNumberNat (cs : List Char) : Option ℕ :=
  if cs ≠ [] ∧ cs.all isDigitChar then some (digitsToNat cs) else none

/-- Map with the element index (JS `map((x, i) => ...)` or `forEach`),
starting from index `k`. -/
def mapIdxFrom (f : ℕ → α → β) : ℕ → List α → List β
  | _, [] => []
  | k, x :: xs => f k x :: mapIdxFrom f (k + 1) xs

/-- The quantity triples the encoder emits for the item at index `i` with
quantity map `m`, person positions starting at `j0`
(src/script.js lines 795-807). -/
def qtyTriples (i : ℕ) (m : List (ℕ × ℚ)) (j0 : ℕ) (ppl : List Person) :
    List (List Char) :=
  (mapIdxFrom (fun personIdx p =>
    match pqLookup p.id m with
    | some qty => if qty ≠ 0
        then [natToChars i ++ '-' :: natToChars personIdx ++ ':' :: numToChars qty]
        else []
    | none => []) j0 ppl).flatten

/-- The full quantity payload of the encoder: the `itemIdx-personIdx:qty`
triples of every item in order (src/script.js lines 795-807). -/
def encQuantities (s : AppState) : List (List Char) :=
  (mapIdxFrom (fun i it => qtyTriples i it.personQuantities 0 s.people) 0 s.items).flatten

/-- `generateShareableURL` (src/script.js lines 780-820), modelled as the
list of query parameters it sets, in order: `p` (comma-separated people
names), `i` (semicolon-separated `name:price` pairs), `q`
(semicolon-separated `itemIndex-personIndex:quantity` triples, emitted
when the person's quantity on the item is truthy), and `tax`/`tip` when
truthy. -/
def generateShareableParams (s : AppState) : List (String × List Char) :=
  (if s.people = [] then []
   else [("p", joinChar ',' (s.people.map (fun p => p.name.data)))]) ++
  (if s.items = [] then []
   else [("i", joinChar ';' (s.items.map (fun it => it.name.data ++ ':' :: numToChars it.price)))]) ++
  (let quantities := encQuantities s
   if quantities = [] then [] else [("q", joinChar ';' quantities)]) ++
  (if s.tax ≠ 0 then [("tax", numToChars s.tax)] else []) ++
  (if s.tip ≠ 0 then [("tip", numToChars s.tip)] else [])

/-- The state object built by `loadStateFromURL`
(src/script.js lines 864-871): it has no transpose flag or undo stack. -/
structure URLState where
  people : List Person
  items : List Item
  nextPersonId : ℕ
  nextItemId : ℕ
  tax : ℚ
  tip : ℚ
deriving DecidableEq, Repr

/-- Replace the element at index `i` (models `arr[i].field = v` style
index-targeted mutation). -/
def modifyIdx (i : ℕ) (f : α → α) : List α → List α
  | [] => []
  | x :: xs =>
      match i with
      | 0 => f x :: xs
      | j + 1 => x :: modifyIdx j f xs

/-- Processing of one `itemIndex-personIndex:quantity` triple by
`loadStateFromURL` (src/script.js lines 899-907): parse the two indices
and the quantity, and when both indices are in range, store the parsed
quantity under the person id (which equals the person index, ids having
just been assigned positionally).  The source stores `parseFloat(qty)`
unconditionally; a `NaN` quantity (unrepresentable in the rational model)
is skipped here, which matters for no string the encoder produces. -/
def decodeQtyStep (nPeople : ℕ) (items : List Item) (qtyStr : List Char) : List Item :=
  let parts := splitOnChar ':' qtyStr
  let indexParts := splitOnChar '-' (parts.headD [])
  match jsNumberNat (indexParts.headD []), jsNumberNat ((indexParts.drop 1).headD []) with
  | some itemIdx, some personIdx =>
      if itemIdx < items.length ∧ personIdx < nPeople then
        match parseFloatQ ((parts.drop 1).headD []) with
        | some qty => modifyIdx itemIdx
            (fun it => { it with personQuantities := setPQ it.personQuantities personIdx qty }) items
        | none => items
      else items
  | _, _ => items

/-- `loadStateFromURL` (src/script.js lines 845-916).  The legacy
base64 `data` parameter takes a branch through `JSON.parse` that is out
of the modelled scope; it is never produced by `generateShareableURL`,
and its presence is mapped to `none` here. -/
def loadStateFromURL (params : List (String × List Char)) : Option URLState :=
  if (getParam "data" params).isSome then none
  else
    let peopleParam := getParam "p" params
    let itemsParam := getParam "i" params
    if peopleParam = none ∧ itemsParam = none then none
    else
      let tax := ((getParam "tax" params).bind parseFloatQ).getD 0
      let tipRaw := ((getParam "tip" params).bind parseFloatQ).getD 0
      let tip := if tipRaw = 0 then 10 else tipRaw
      let people :=
        match peopleParam with
        | none => []
        | some pp => mapIdxFrom (fun idx nameCs =>
            { id := idx, name := jsTrim (String.mk nameCs) } : ℕ → List Char → Person) 0
            (splitOnChar ',' pp)
      let items :=
        match itemsParam with
        | none => []
        | some ip => mapIdxFrom (fun idx itemStr =>
            let parts := splitOnChar ':' itemStr
            { id := idx,
              name := jsTrim (String.mk (parts.headD [])),
              price := (((parts.drop 1).headD []) |> parseFloatQ).getD 0,
              personQuantities := [] } : ℕ → List Char → Item) 0
            (splitOnChar ';' ip)
      let items :=
        match getParam "q" params with
        | none => items
        | some qp =>
            if items ≠ [] ∧ people ≠ [] then
              (splitOnChar ';' qp).foldl (decodeQtyStep people.length) items
            else items
      some { people := people, items := items,
             nextPersonId := people.length, nextItemId := items.length,
             tax := tax, tip := tip }

/-! ## Reachable states -/

/-- States reachable from the initial state through the store's mutation
operations (clearing and the shared-link load reset included). -/
inductive Reachable : AppState → Prop
  | init : Reachable initialState
  | addPerson (raw : String) {s : AppState} : Reachable s → Reachable (handleAddPerson raw s)
  | addItem (rawName : String) (rawPrice : Option ℚ) {s : AppState} :
      Reachable s → Reachable (handleAddItem rawName rawPrice s)
  | delPerson (pid : ℕ) {s : AppState} : Reachable s → Reachable (deletePerson pid s)
  | delItem (itemId : ℕ) {s : AppState} : Reachable s → Reachable (deleteItem itemId s)
  | updateQty (itemId pid : ℕ) (raw : Option ℚ) {s : AppState} :
      Reachable s → Reachable (updatePersonQuantity itemId pid raw s)
  | split (itemId : ℕ) {s : AppState} : Reachable s → Reachable (splitEvenly itemId s)
  | clearQ (itemId : ℕ) {s : AppState} : Reachable s → Reachable (clearAllQuantities itemId s)
  | editPerson (pid : ℕ) (raw : String) {s : AppState} :
      Reachable s → Reachable (editPersonSave pid raw s)
  | shuffle (rand : ℕ → ℚ) {s : AppState} : Reachable s → Reachable (shuffleQuantities rand s)
  | undo {s : AppState} : Reachable s → Reachable (performUndo s)
  | clear {s : AppState} : Reachable s → Reachable (clearState s)

/-- Concrete instance for C1: the spec §8 example state. -/
def exampleState : AppState :=
  { people := [⟨0, "Amy"⟩, ⟨1, "Bo"⟩],
    items := [⟨0, "Pizza", 20, [(0, 1), (1, 1)]⟩],
    nextPersonId := 2, nextItemId := 1, tax := 10, tip := 10,
    isTransposed := false, undoStack := [] }

/-- The person ids of a person-totals list. -/
def idsOf (pt : List (Person × ℚ)) : List ℕ := pt.map (fun e => e.1.id)

/-- Concrete person-totals list for the C2 witness. -/
def c2WitPt : List (Person × ℚ) := [(⟨0, "A"⟩, 0), (⟨1, "B"⟩, 0)]

/-- Concrete item for the C2 witness. -/
def c2WitItem : Item := ⟨0, "X", 10, [(0, 1), (1, 1)]⟩

/-- A state refuting C2 as stated: one person (id 0), one item of price 10
whose quantity map also carries an entry for the stale person id 99. -/
def c2CexState : AppState :=
  { people := [⟨0, "A"⟩],
    items := [⟨0, "X", 10, [(0, 1), (99, 1)]⟩],
    nextPersonId := 1, nextItemId := 1, tax := 0, tip := 0,
    isTransposed := false, undoStack := [] }

/-- Default item for positional access. -/
def dummyItem : Item := ⟨0, "", 0, []⟩

/-- The per-item update `splitEvenly` applies: replace the quantity map
with one entry of quantity 1 per current person. -/
def splitUpd (people : List Person) : Item → Item := fun it =>
  { it with personQuantities := people.map (fun p => (p.id, (1 : ℚ))) }

/-- Concrete state for the C10 witness: two people, two items, the first
item carrying old entries including one for a stale person id. -/
def c10State : AppState :=
  { people := [⟨3, "A"⟩, ⟨5, "B"⟩],
    items := [⟨0, "X", 10, [(3, 2), (9, 4)]⟩, ⟨1, "Y", 7, [(5, 1)]⟩],
    nextPersonId := 6, nextItemId := 2, tax := 0, tip := 10,
    isTransposed := false, undoStack := [] }

/-- Person names are nonempty and case-insensitively unique. -/
def peopleNamesOK (ps : List Person) : Prop :=
  (∀ p ∈ ps, p.name ≠ "") ∧ (ps.map (fun p => jsToLower p.name)).Nodup

instance (ps : List Person) : Decidable (peopleNamesOK ps) := by
  unfold peopleNamesOK
  infer_instance

/-- A state refuting the rename clause of C6: two people with distinct
names. -/
def c6State : AppState :=
  { people := [⟨0, "Alice"⟩, ⟨1, "Bob"⟩],
    items := [], nextPersonId := 2, nextItemId := 0, tax := 0, tip := 10,
    isTransposed := false, undoStack := [] }

/-- Concrete state for the C6 witness. -/
def c6WitState : AppState :=
  { people := [⟨0, "Ann"⟩],
    items := [], nextPersonId := 1, nextItemId := 0, tax := 0, tip := 10,
    isTransposed := false, undoStack := [] }

/-- Concrete legacy item for the C7 witness: unequal amounts 2 and 6. -/
def c7It : LegacyItem := ⟨3, "Cake", 9, none, none, some [(0, 2), (1, 6)]⟩

/-- Add an item named "x" with price 1 and immediately delete it.  On a
state with no items this leaves people and items unchanged and pushes one
undo entry; no code path truncates the stack. -/
def addDeleteCycle (s : AppState) : AppState :=
  deleteItem s.nextItemId (handleAddItem "x" (some 1) s)

/-- Every value in a quantity map is strictly positive. -/
def mapPos (m : List (ℕ × ℚ)) : Prop := ∀ e ∈ m, 0 < e.2

instance (m : List (ℕ × ℚ)) : Decidable (mapPos m) := by
  unfold mapPos
  infer_instance

/-- Positivity of the quantities captured inside an undo entry. -/
def undoEntryPos (u : UndoEntry) : Prop :=
  match u with
  | UndoEntry.person _ iqs => ∀ e ∈ iqs, 0 < e.2
  | UndoEntry.item it => mapPos it.personQuantities

instance (u : UndoEntry) : Decidable (undoEntryPos u) := by
  cases u with
  | person p iqs => exact inferInstanceAs (Decidable (∀ e ∈ iqs, 0 < e.2))
  | item it => exact inferInstanceAs (Decidable (mapPos it.personQuantities))

/-- The positivity invariant: every stored quantity, in items and in undo
entries, is strictly positive. -/
def invPos (s : AppState) : Prop :=
  (∀ it ∈ s.items, mapPos it.personQuantities) ∧ ∀ u ∈ s.undoStack, undoEntryPos u

instance (s : AppState) : Decidable (invPos s) := by
  unfold invPos
  infer_instance

/-- URL parameters refuting the loading half of C5:
`?p=A&i=X:10&q=0-0:-5`. -/
def c5Params : List (String × List Char) :=
  [("p", ['A']), ("i", ['X', ':', '1', '0']), ("q", ['0', '-', '0', ':', '-', '5'])]

/-- Concrete state for the C5 witness: one person, one item with one
positive quantity entry, one undo entry of each kind. -/
def c5WitState : AppState :=
  { people := [⟨0, "A"⟩],
    items := [⟨0, "X", 10, [(0, 2)]⟩],
    nextPersonId := 1, nextItemId := 1, tax := 0, tip := 10,
    isTransposed := false,
    undoStack := [UndoEntry.person ⟨7, "B"⟩ [(0, 3)], UndoEntry.item ⟨9, "Y", 4, [(0, 1)]⟩] }

/-- The captured value of a truthy quantity entry: `some q` exactly when
the map holds a nonzero quantity for the person. -/
def truthyLookup (pid : ℕ) (m : List (ℕ × ℚ)) : Option ℚ :=
  match pqLookup pid m with
  | some q => if q ≠ 0 then some q else none
  | none => none

/-- Concrete state for the C4 witness. -/
def c4State : AppState :=
  { people := [⟨0, "Amy"⟩, ⟨1, "Bo"⟩],
    items := [⟨0, "Pizza", 20, [(0, 1), (1, 2)]⟩, ⟨1, "Tea", 5, [(1, 1)]⟩],
    nextPersonId := 2, nextItemId := 2, tax := 0, tip := 10,
    isTransposed := false, undoStack := [] }

/-- Concrete state and draw stream for the C8 witness. -/
def c8State : AppState :=
  { people := [⟨0, "Amy"⟩, ⟨1, "Bo"⟩],
    items := [⟨0, "Pizza", 20, [(0, 1), (1, 1)]⟩, ⟨1, "Tea", 5, []⟩],
    nextPersonId := 2, nextItemId := 2, tax := 0, tip := 10,
    isTransposed := false, undoStack := [] }

/-- Default person for positional access. -/
def dummyPerson : Person := ⟨0, ""⟩

/-- The `(itemIdx, qty)` pairs a decoded quantity parameter deposits for one
item, indexed by person position starting at `j0` (proof-side image of the
encoder's per-item triple block). -/
def qtyPairs (m : List (ℕ × ℚ)) (j0 : ℕ) (ppl : List Person) : List (ℕ × ℚ) :=
  (mapIdxFrom (fun j p =>
    match pqLookup p.id m with
    | some q => if q ≠ 0 then [(j, q)] else []
    | none => []) j0 ppl).flatten

/-- The people list `loadStateFromURL` builds from the encoder's `p`
parameter of state `s` (ids assigned positionally). -/
def decodedPeople (s : AppState) : List Person :=
  mapIdxFrom (fun idx nameCs =>
    { id := idx, name := jsTrim (String.mk nameCs) }) 0
    (s.people.map (fun p => p.name.data))

/-- The item list `loadStateFromURL` builds from the encoder's `i`
parameter of state `s`, before quantities are applied. -/
def decodedItems0 (s : AppState) : List Item :=
  mapIdxFrom (fun idx itemStr =>
    let parts := splitOnChar ':' itemStr
    { id := idx,
      name := jsTrim (String.mk (parts.headD [])),
      price := ((parts.drop 1).headD [] |> parseFloatQ).getD 0,
      personQuantities := [] }) 0
    (s.items.map (fun it => it.name.data ++ ':' :: numToChars it.price))

/-- The final item list `loadStateFromURL` builds for the encoder's
parameters of state `s`. -/
def decodedItems (s : AppState) : List Item :=
  if s.items = [] then []
  else if encQuantities s = [] then decodedItems0 s
  else (encQuantities s).foldl (decodeQtyStep (decodedPeople s).length) (decodedItems0 s)

/-- A state with tip 0: its shareable URL omits the tip parameter, and
decoding falls back to the default tip of 10. -/
def c3CexState : AppState :=
  { people := [⟨0, "A"⟩], items := [], nextPersonId := 1, nextItemId := 0,
    tax := 0, tip := 0, isTransposed := false, undoStack := [] }

/-- Concrete state exercising the URL round trip: two people, one item
with two positive quantities, nonzero tax and tip. -/
def c3WitState : AppState :=
  { people := [⟨0, "A"⟩, ⟨1, "B"⟩],
    items := [⟨0, "X", 10, [(0, 1), (1, 2)]⟩],
    nextPersonId := 2, nextItemId := 1,
    tax := 5, tip := 10, isTransposed := false, undoStack := [] }

/-! ## Theorems -/

/-! ## General lemmas -/

theorem foldl_add_eq_sum {α : Type} (f : α → ℚ) (l : List α) (c : ℚ) :
    l.foldl (fun a x => a + f x) c = c + (l.map f).sum := by
  induction l generalizing c with
  | nil => simp
  | cons x xs ih => rw [List.foldl_cons, ih, List.map_cons, List.sum_cons]; ring

theorem updateSubtotal_map_fst (pid : ℕ) (f : ℚ → ℚ) (l : List (Person × ℚ)) :
    (updateSubtotal pid f l).map Prod.fst = l.map Prod.fst := by
  induction l with
  | nil => rfl
  | cons e rest ih =>
      unfold updateSubtotal
      split <;> simp [ih]

theorem accumEntries_map_fst (ppu : ℚ) (entries : List (ℕ × ℚ)) (pt : List (Person × ℚ)) :
    ((entries.foldl (fun acc e =>
        if 0 < e.2 then updateSubtotal e.1 (fun sub => sub + e.2 * ppu) acc
        else acc) pt).map Prod.fst) = pt.map Prod.fst := by
  induction entries generalizing pt with
  | nil => rfl
  | cons e rest ih =>
      rw [List.foldl_cons, ih]
      split <;> simp [updateSubtotal_map_fst]

theorem accumItem_map_fst (pt : List (Person × ℚ)) (it : Item) :
    (accumItem pt it).map Prod.fst = pt.map Prod.fst := by
  unfold accumItem
  dsimp only
  split
  · exact accumEntries_map_fst _ _ _
  · rfl

theorem foldl_accumItem_map_fst (items : List Item) (pt : List (Person × ℚ)) :
    ((items.foldl accumItem pt).map Prod.fst) = pt.map Prod.fst := by
  induction items generalizing pt with
  | nil => rfl
  | cons it rest ih => rw [List.foldl_cons, ih, accumItem_map_fst]

/-! ## C1: grand total and bill subtotal -/

/-- C1: for every state with at least one person, the breakdown's grand
total equals the sum over all people of
`subtotal * (1 + taxPercent/100 + tipPercent/100)`, and the bill subtotal
equals the sum of all item prices, items with empty or zero-total
quantity maps included. -/
theorem C1_grand_total_and_bill_subtotal (s : AppState) (h : s.people ≠ []) :
    ∃ b, calculateSplit s = some b ∧
      b.personTotals.map Prod.fst = s.people ∧
      b.grandTotal =
        (b.personTotals.map (fun e => e.2 * (1 + s.tax / 100 + s.tip / 100))).sum ∧
      b.billSubtotal = (s.items.map (fun it => it.price)).sum := by
  unfold calculateSplit
  rw [if_neg h]
  refine ⟨_, rfl, ?_, ?_, ?_⟩
  · dsimp only
    rw [foldl_accumItem_map_fst, List.map_map]
    exact List.map_id s.people
  · dsimp only
    rw [show (fun (acc : ℚ) (e : Person × ℚ) =>
          acc + (e.2 + e.2 * (s.tax / 100) + e.2 * (s.tip / 100))) =
        (fun acc e => acc + (fun e : Person × ℚ =>
          e.2 * (1 + s.tax / 100 + s.tip / 100)) e) from by
        funext acc e
        ring]
    rw [foldl_add_eq_sum]
    rw [zero_add]
  · dsimp only
    rw [show (fun (acc : ℚ) (it : Item) => acc + it.price) =
        (fun acc it => acc + (fun it : Item => it.price) it) from rfl]
    rw [foldl_add_eq_sum]
    rw [zero_add]

/-- Witness for C1 at the spec §8 example state. -/
theorem C1_witness :
    ∃ b, calculateSplit exampleState = some b ∧
      b.personTotals.map Prod.fst = exampleState.people ∧
      b.grandTotal =
        (b.personTotals.map
          (fun e => e.2 * (1 + exampleState.tax / 100 + exampleState.tip / 100))).sum ∧
      b.billSubtotal = (exampleState.items.map (fun it => it.price)).sum :=
  C1_grand_total_and_bill_subtotal exampleState (by decide)

/-! ## C2: per-item shares -/

theorem updateSubtotal_idsOf (pid : ℕ) (f : ℚ → ℚ) (pt : List (Person × ℚ)) :
    idsOf (updateSubtotal pid f pt) = idsOf pt := by
  unfold idsOf
  rw [show (fun e : Person × ℚ => e.1.id) = (fun p : Person => p.id) ∘ Prod.fst from rfl]
  rw [← List.map_map, ← List.map_map, updateSubtotal_map_fst]

theorem updateSubtotal_sum_add (pid : ℕ) (d : ℚ) (pt : List (Person × ℚ))
    (h : pid ∈ idsOf pt) :
    ((updateSubtotal pid (fun sub => sub + d) pt).map Prod.snd).sum =
      (pt.map Prod.snd).sum + d := by
  induction pt with
  | nil => simp [idsOf] at h
  | cons e rest ih =>
      unfold updateSubtotal
      by_cases he : e.1.id = pid
      · rw [if_pos he]
        simp only [List.map_cons, List.sum_cons]
        ring
      · rw [if_neg he]
        simp only [List.map_cons, List.sum_cons]
        rw [ih]
        · ring
        · simp only [idsOf, List.map_cons, List.mem_cons] at h
          rcases h with h | h
          · exact absurd h.symm he
          · exact h

theorem accumEntries_sum (ppu : ℚ) (entries : List (ℕ × ℚ)) (pt : List (Person × ℚ))
    (h : ∀ e ∈ entries, e.1 ∈ idsOf pt ∧ 0 < e.2) :
    ((entries.foldl (fun acc e =>
        if 0 < e.2 then updateSubtotal e.1 (fun sub => sub + e.2 * ppu) acc
        else acc) pt).map Prod.snd).sum =
      (pt.map Prod.snd).sum + (entries.map (fun e => e.2)).sum * ppu := by
  induction entries generalizing pt with
  | nil => simp
  | cons e rest ih =>
      rw [List.foldl_cons]
      have he := h e (by simp)
      rw [if_pos he.2]
      rw [ih]
      · rw [updateSubtotal_sum_add e.1 (e.2 * ppu) pt he.1]
        simp only [List.map_cons, List.sum_cons]
        ring
      · intro x hx
        have hx2 := h x (by simp [hx])
        rw [updateSubtotal_idsOf]
        exact hx2

/-- C2 (amended): processing one item of the breakdown adds exactly the
item's price to the total of all person subtotals, provided the item's
total assigned quantity is positive and every quantity-map entry is
positive and references a person in the list. -/
theorem C2_item_shares_sum_to_price (pt : List (Person × ℚ)) (it : Item)
    (hmem : ∀ e ∈ it.personQuantities, e.1 ∈ idsOf pt ∧ 0 < e.2)
    (hT : 0 < itemTotalQty it) :
    ((accumItem pt it).map Prod.snd).sum = (pt.map Prod.snd).sum + it.price := by
  unfold accumItem
  dsimp only
  rw [if_pos hT]
  rw [accumEntries_sum (it.price / itemTotalQty it) it.personQuantities pt hmem]
  have : (it.personQuantities.map (fun e => e.2)).sum = itemTotalQty it := rfl
  rw [this, mul_comm, div_mul_cancel₀ it.price (ne_of_gt hT)]

/-- Witness for the amended C2. -/
theorem C2_witness :
    ((accumItem c2WitPt c2WitItem).map Prod.snd).sum =
      ((c2WitPt.map Prod.snd).sum) + c2WitItem.price :=
  C2_item_shares_sum_to_price c2WitPt c2WitItem
    (by norm_num [c2WitPt, c2WitItem, idsOf])
    (by norm_num [c2WitItem, itemTotalQty, pqValues])

/-- Counterexample to C2 as stated: the stale entry for person id 99 still
counts toward the item's total quantity, so the one item's shares sum to 5,
not to its price 10 — out-of-roster entries are not neutral. -/
theorem C2_counterexample :
    ∃ b, calculateSplit c2CexState = some b ∧
      (b.personTotals.map Prod.snd).sum = 5 ∧
      (c2CexState.items.map (fun it => it.price)).sum = 10 ∧ (5 : ℚ) ≠ 10 := by
  refine ⟨_, rfl, ?_, ?_, ?_⟩
  · norm_num [c2CexState, accumItem, itemTotalQty, pqValues, updateSubtotal]
  · norm_num [c2CexState]
  · norm_num

/-! ## C10: splitEvenly -/

theorem getD_mem {α : Type} (l : List α) (d : α) (j : ℕ) (hj : j < l.length) :
    l.getD j d ∈ l := by
  induction l generalizing j with
  | nil => simp at hj
  | cons x xs ih =>
      match j with
      | 0 => simp
      | j + 1 =>
          simp only [List.getD_cons_succ, List.mem_cons]
          exact Or.inr (ih j (by simpa using hj))

theorem updateFirstItem_length (itemId : ℕ) (f : Item → Item) (l : List Item) :
    (updateFirstItem itemId f l).length = l.length := by
  induction l with
  | nil => rfl
  | cons it rest ih =>
      unfold updateFirstItem
      split <;> simp [ih]

theorem updateFirstItem_getD (itemId : ℕ) (f : Item → Item) (l : List Item)
    (hnodup : (l.map Item.id).Nodup) (j : ℕ) (hj : j < l.length) :
    (updateFirstItem itemId f l).getD j dummyItem =
      if (l.getD j dummyItem).id = itemId then f (l.getD j dummyItem)
      else l.getD j dummyItem := by
  induction l generalizing j with
  | nil => simp at hj
  | cons it rest ih =>
      simp only [List.map_cons, List.nodup_cons] at hnodup
      unfold updateFirstItem
      by_cases hit : it.id = itemId
      · rw [if_pos hit]
        match j with
        | 0 => simp [hit]
        | j + 1 =>
            simp only [List.getD_cons_succ]
            have hmem : (rest.getD j dummyItem).id ∈ rest.map Item.id := by
              exact List.mem_map_of_mem Item.id (getD_mem rest dummyItem j (by simpa using hj))
            have : (rest.getD j dummyItem).id ≠ itemId := by
              intro hEq
              refine hnodup.1 ?_
              rw [hit, ← hEq]
              exact hmem
            rw [if_neg this]
      · rw [if_neg hit]
        match j with
        | 0 => simp [hit]
        | j + 1 =>
            simp only [List.getD_cons_succ]
            exact ih hnodup.2 j (by simpa using hj)

theorem pqLookup_rosterMap (pid : ℕ) (people : List Person) :
    pqLookup pid (people.map (fun p => (p.id, (1 : ℚ)))) =
      if pid ∈ people.map Person.id then some 1 else none := by
  induction people with
  | nil => simp [pqLookup]
  | cons p ps ih =>
      simp only [List.map_cons, pqLookup]
      by_cases h : p.id = pid
      · simp [h]
      · rw [if_neg h, ih]
        have : ¬ pid = p.id := fun hEq => h hEq.symm
        simp [this]

/-- C10: when an item with the given id exists and the roster is
nonempty, `splitEvenly` replaces that item's whole quantity map with one
entry of quantity 1 per current person — its lookup is `some 1` exactly
on current person ids and `none` elsewhere, previous entries included —
leaving every other item and the rest of the state untouched; when the
item is absent or the roster is empty, the state is unchanged. -/
theorem C10_splitEvenly (s : AppState) (itemId : ℕ)
    (hnodup : (s.items.map Item.id).Nodup) :
    ((findItem itemId s.items).isSome ∧ s.people ≠ [] →
      (splitEvenly itemId s).people = s.people ∧
      (splitEvenly itemId s).items.length = s.items.length ∧
      ∀ j, j < s.items.length →
        (if (s.items.getD j dummyItem).id = itemId then
          ((splitEvenly itemId s).items.getD j dummyItem).id = (s.items.getD j dummyItem).id ∧
          ((splitEvenly itemId s).items.getD j dummyItem).name =
            (s.items.getD j dummyItem).name ∧
          ((splitEvenly itemId s).items.getD j dummyItem).price =
            (s.items.getD j dummyItem).price ∧
          ∀ pid, pqLookup pid
              ((splitEvenly itemId s).items.getD j dummyItem).personQuantities =
            (if pid ∈ s.people.map Person.id then some 1 else none)
        else (splitEvenly itemId s).items.getD j dummyItem = s.items.getD j dummyItem)) ∧
    (findItem itemId s.items = none ∨ s.people = [] → splitEvenly itemId s = s) := by
  constructor
  · rintro ⟨hfind, hpeople⟩
    obtain ⟨it, hit⟩ := Option.isSome_iff_exists.mp hfind
    have hsplit : splitEvenly itemId s =
        { s with items := updateFirstItem itemId (splitUpd s.people) s.items } := by
      unfold splitEvenly splitUpd
      rw [hit]
      dsimp only
      rw [if_neg hpeople]
    rw [hsplit]
    refine ⟨rfl, updateFirstItem_length _ _ _, ?_⟩
    intro j hj
    rw [updateFirstItem_getD _ _ _ hnodup j hj]
    by_cases hcase : (s.items.getD j dummyItem).id = itemId
    · rw [if_pos hcase, if_pos hcase]
      refine ⟨rfl, rfl, rfl, ?_⟩
      intro pid
      exact pqLookup_rosterMap pid s.people
    · rw [if_neg hcase, if_neg hcase]
  · intro h
    unfold splitEvenly
    rcases h with h | h
    · rw [h]
    · cases hfind : findItem itemId s.items with
      | none => rfl
      | some it =>
          dsimp only
          rw [if_pos h]

/-- Witness for C10 at `c10State` with item id 0. -/
theorem C10_witness :
    ((findItem 0 c10State.items).isSome ∧ c10State.people ≠ [] →
      (splitEvenly 0 c10State).people = c10State.people ∧
      (splitEvenly 0 c10State).items.length = c10State.items.length ∧
      ∀ j, j < c10State.items.length →
        (if (c10State.items.getD j dummyItem).id = 0 then
          ((splitEvenly 0 c10State).items.getD j dummyItem).id =
            (c10State.items.getD j dummyItem).id ∧
          ((splitEvenly 0 c10State).items.getD j dummyItem).name =
            (c10State.items.getD j dummyItem).name ∧
          ((splitEvenly 0 c10State).items.getD j dummyItem).price =
            (c10State.items.getD j dummyItem).price ∧
          ∀ pid, pqLookup pid
              ((splitEvenly 0 c10State).items.getD j dummyItem).personQuantities =
            (if pid ∈ c10State.people.map Person.id then some 1 else none)
        else (splitEvenly 0 c10State).items.getD j dummyItem =
          c10State.items.getD j dummyItem)) ∧
    (findItem 0 c10State.items = none ∨ c10State.people = [] →
      splitEvenly 0 c10State = c10State) :=
  C10_splitEvenly c10State 0 (by decide)

/-! ## C6: person-name invariants -/

theorem updateFirstPersonName_names (pid : ℕ) (nm : String) (ps : List Person) :
    ∀ q ∈ updateFirstPersonName pid nm ps, q.name = nm ∨ q ∈ ps := by
  induction ps with
  | nil => simp [updateFirstPersonName]
  | cons p rest ih =>
      unfold updateFirstPersonName
      split
      · intro q hq
        rcases List.mem_cons.mp hq with h | h
        · exact Or.inl (by rw [h])
        · exact Or.inr (List.mem_cons_of_mem _ h)
      · intro q hq
        rcases List.mem_cons.mp hq with h | h
        · exact Or.inr (by rw [h]; exact List.mem_cons_self _ _)
        · rcases ih q h with h2 | h2
          · exact Or.inl h2
          · exact Or.inr (List.mem_cons_of_mem _ h2)

/-- Counterexample to C6 as stated: renaming person 1 to "alice" is
accepted even though it case-insensitively collides with "Alice", so the
rename is not rejected and uniqueness is broken. -/
theorem C6_counterexample :
    peopleNamesOK c6State.people ∧
    (editPersonSave 1 "alice" c6State).people = [⟨0, "Alice"⟩, ⟨1, "alice"⟩] ∧
    ¬ peopleNamesOK (editPersonSave 1 "alice" c6State).people := by
  refine ⟨?_, ?_, ?_⟩ <;> decide

/-- C6 (amended): `handleAddPerson` preserves nonemptiness and
case-insensitive uniqueness of person names (a case-insensitive duplicate
is rejected), while the rename path preserves only nonemptiness — it
performs no duplicate check. -/
theorem C6_add_unique_rename_nonempty (s : AppState) (raw : String) (pid : ℕ) :
    (peopleNamesOK s.people → peopleNamesOK (handleAddPerson raw s).people) ∧
    ((∀ p ∈ s.people, p.name ≠ "") →
      ∀ p ∈ (editPersonSave pid raw s).people, p.name ≠ "") := by
  constructor
  · intro hOK
    unfold handleAddPerson
    by_cases hempty : jsTrim raw = ""
    · rw [if_pos hempty]
      exact hOK
    · rw [if_neg hempty]
      by_cases hdup : s.people.any (fun p => jsToLower p.name = jsToLower (jsTrim raw))
      · rw [if_pos hdup]
        exact hOK
      · rw [if_neg hdup]
        simp only [List.any_eq_true, decide_eq_true_eq, not_exists, not_and] at hdup
        constructor
        · intro p hp
          rcases List.mem_append.mp hp with h | h
          · exact hOK.1 p h
          · rw [List.mem_singleton.mp h]
            exact hempty
        · rw [List.map_append]
          rw [List.nodup_append]
          refine ⟨hOK.2, List.nodup_singleton _, ?_⟩
          intro x hx hx2
          simp only [List.map_cons, List.map_nil, List.mem_singleton] at hx2
          obtain ⟨p, hp, hpx⟩ := List.mem_map.mp hx
          exact hdup p hp (by rw [hpx, hx2])
  · intro hNE
    unfold editPersonSave
    cases hfind : findPerson pid s.people with
    | none => exact hNE
    | some person =>
        dsimp only
        by_cases hcond : jsTrim raw ≠ "" ∧ jsTrim raw ≠ person.name
        · rw [if_pos hcond]
          intro q hq
          rcases updateFirstPersonName_names pid (jsTrim raw) s.people q hq with h | h
          · rw [h]; exact hcond.1
          · exact hNE q h
        · rw [if_neg hcond]
          exact hNE

/-- Witness for the amended C6: adding "Bea" keeps the name invariant, and
a whitespace-only rename of person 0 keeps all names nonempty. -/
theorem C6_witness :
    peopleNamesOK (handleAddPerson "Bea" c6WitState).people ∧
    (∀ p ∈ (editPersonSave 0 "  " c6WitState).people, p.name ≠ "") :=
  ⟨(C6_add_unique_rename_nonempty c6WitState "Bea" 0).1 (by decide),
   (C6_add_unique_rename_nonempty c6WitState "  " 0).2 (by decide)⟩

/-! ## C7: legacy amount migration -/

theorem sum_pos_of_not_allEqual (am : List (ℕ × ℚ)) (hnn : ∀ e ∈ am, 0 ≤ e.2)
    (hne : am ≠ []) (hfalse : allEqualAmounts am = false) :
    0 < (pqValues am).sum := by
  have hnnv : ∀ v ∈ pqValues am, 0 ≤ v := by
    intro v hv
    obtain ⟨e, he, hev⟩ := List.mem_map.mp hv
    rw [← hev]
    exact hnn e he
  unfold allEqualAmounts at hfalse
  rw [Bool.and_eq_false_iff] at hfalse
  rcases hfalse with hfalse | hfalse
  · rw [Bool.not_eq_false'] at hfalse
    exact absurd (List.isEmpty_iff.mp hfalse) hne
  · rw [List.all_eq_false] at hfalse
    obtain ⟨e, he, hlt⟩ := hfalse
    simp only [decide_eq_true_eq] at hlt
    rw [not_lt] at hlt
    set a0 := (pqValues am).headD 0 with ha0
    have ha0mem : a0 ∈ pqValues am := by
      rw [ha0]
      cases hpv : pqValues am with
      | nil =>
          exfalso
          have : am = [] := by
            have := congrArg List.length hpv
            simpa [pqValues] using List.length_eq_zero.mp (by simpa [pqValues] using this)
          exact hne this
      | cons v vs => simp
    have ha0nn : 0 ≤ a0 := hnnv a0 ha0mem
    have hemem : e.2 ∈ pqValues am := List.mem_map_of_mem _ he
    rcases le_or_lt e.2 a0 with hle | hgt
    · have habs : |e.2 - a0| = a0 - e.2 := by
        rw [abs_of_nonpos (by linarith : e.2 - a0 ≤ 0)]
        ring
      have h1 : (1 : ℚ) / 100 ≤ a0 := by
        rw [habs] at hlt
        linarith [hnn e he]
      calc (0 : ℚ) < 1 / 100 := by norm_num
      _ ≤ a0 := h1
      _ ≤ (pqValues am).sum := List.single_le_sum hnnv a0 ha0mem
    · have habs : |e.2 - a0| = e.2 - a0 := abs_of_nonneg (by linarith)
      have h1 : (1 : ℚ) / 100 ≤ e.2 := by
        rw [habs] at hlt
        linarith
      calc (0 : ℚ) < 1 / 100 := by norm_num
      _ ≤ e.2 := h1
      _ ≤ (pqValues am).sum := List.single_le_sum hnnv e.2 hemem

/-- C7: an item carrying a legacy `personAmounts` field and no quantity
map migrates to quantity 1 per listed person when all amounts are equal
within epsilon 0.01 (compared to the first amount), and otherwise to
`amount / totalAmount * personCount` per listed person — proportional to
the amounts and summing to the person count. -/
theorem C7_amounts_migration (it : LegacyItem) (am : List (ℕ × ℚ))
    (hpa : it.personAmounts = some am) (hpq : it.personQuantities = none)
    (hnn : ∀ e ∈ am, 0 ≤ e.2) (hne : am ≠ []) :
    (allEqualAmounts am = true →
      (migrateItem it).personQuantities = am.map (fun e => (e.1, (1 : ℚ)))) ∧
    (allEqualAmounts am = false →
      (migrateItem it).personQuantities =
        am.map (fun e => (e.1, e.2 / (pqValues am).sum * (am.length : ℚ))) ∧
      (pqValues (migrateItem it).personQuantities).sum = (am.length : ℚ)) := by
  have hc1 : ¬ (it.sharedBy.isSome = true ∧ it.personQuantities = none ∧
      it.personAmounts = none) := by
    rintro ⟨-, -, h3⟩
    rw [hpa] at h3
    exact Option.some_ne_none am h3
  have hc2 : it.personAmounts.isSome = true ∧ it.personQuantities = none :=
    ⟨by rw [hpa]; rfl, hpq⟩
  unfold migrateItem
  rw [if_neg hc1, if_pos hc2, hpa]
  simp only [Option.getD_some]
  constructor
  · intro htrue
    rw [if_pos htrue]
  · intro hfalse
    have htot : 0 < (am.map (fun e : ℕ × ℚ => e.2)).sum :=
      sum_pos_of_not_allEqual am hnn hne hfalse
    rw [if_neg (by rw [hfalse]; exact Bool.false_ne_true)]
    constructor
    · simp only [pqValues, List.length_map]
      simp only [if_pos htot]
    · simp only [pqValues, List.length_map, List.map_map]
      simp only [if_pos htot]
      have hfun : ((fun e : ℕ × ℚ => e.2) ∘ fun e : ℕ × ℚ =>
          (e.1, e.2 / (am.map (fun e : ℕ × ℚ => e.2)).sum * (am.length : ℚ))) =
          fun e : ℕ × ℚ => e.2 *
            ((am.length : ℚ) / (am.map (fun e : ℕ × ℚ => e.2)).sum) := by
        funext e
        simp only [Function.comp]
        ring
      rw [hfun, List.sum_map_mul_right]
      rw [mul_comm, div_mul_cancel₀]
      exact ne_of_gt htot

/-- Witness for C7: the unequal-amounts branch fires and produces
quantities proportional to 2 and 6 summing to the person count 2. -/
theorem C7_witness :
    (migrateItem c7It).personQuantities = [(0, 1 / 2), (1, 3 / 2)] ∧
    (pqValues (migrateItem c7It).personQuantities).sum = 2 := by
  have hfalse : allEqualAmounts [(0, (2 : ℚ)), (1, 6)] = false := by
    norm_num [allEqualAmounts, pqValues]
  have h := (C7_amounts_migration c7It [(0, 2), (1, 6)] rfl rfl
    (by norm_num) (by simp)).2 hfalse
  refine ⟨?_, ?_⟩
  · rw [h.1]
    norm_num [pqValues]
  · rw [h.2]
    norm_num

/-! ## C9: the undo stack is unbounded -/

theorem addDeleteCycle_grows (s : AppState) (h : s.items = []) :
    (addDeleteCycle s).items = [] ∧
    (addDeleteCycle s).undoStack.length = s.undoStack.length + 1 := by
  have h1 : handleAddItem "x" (some 1) s =
      { s with items := [⟨s.nextItemId, "x", 1, []⟩],
               nextItemId := s.nextItemId + 1 } := by
    unfold handleAddItem
    dsimp only
    rw [if_pos ⟨by decide, by norm_num⟩]
    rw [h]
    simp [jsTrim]
  unfold addDeleteCycle
  rw [h1]
  unfold deleteItem findItem
  simp

theorem cycle_iterate (n : ℕ) :
    Reachable (addDeleteCycle^[n] initialState) ∧
    (addDeleteCycle^[n] initialState).items = [] ∧
    (addDeleteCycle^[n] initialState).undoStack.length = n := by
  induction n with
  | zero => exact ⟨Reachable.init, rfl, rfl⟩
  | succ n ih =>
      rw [Function.iterate_succ_apply']
      refine ⟨?_, ?_, ?_⟩
      · show Reachable (deleteItem _ (handleAddItem "x" (some 1) _))
        exact Reachable.delItem _ (Reachable.addItem _ _ ih.1)
      · exact (addDeleteCycle_grows _ ih.2.1).1
      · rw [(addDeleteCycle_grows _ ih.2.1).2, ih.2.2]

/-- Counterexample to C9 as stated: no fixed bound `N` caps the undo
stack over reachable states — adding and deleting an item `N + 1` times
from the initial state produces a reachable state with `N + 1` undo
entries. -/
theorem C9_counterexample : ¬ ∃ N, ∀ s, Reachable s → s.undoStack.length ≤ N := by
  rintro ⟨N, hN⟩
  have h := cycle_iterate (N + 1)
  have hle := hN _ h.1
  rw [h.2.2] at hle
  omega

/-- C9 (amended): the undo log is an unbounded stack — for every `N`
some state reachable through the store's operations holds more than `N`
undo entries. -/
theorem C9_undo_stack_unbounded : ∀ N, ∃ s, Reachable s ∧ N < s.undoStack.length := by
  intro N
  refine ⟨_, (cycle_iterate (N + 1)).1, ?_⟩
  rw [(cycle_iterate (N + 1)).2.2]
  omega

/-! ## C5: positivity of stored quantities -/

theorem pqLookup_mem (k : ℕ) (m : List (ℕ × ℚ)) (q : ℚ) (h : pqLookup k m = some q) :
    (k, q) ∈ m := by
  induction m with
  | nil => simp [pqLookup] at h
  | cons e rest ih =>
      unfold pqLookup at h
      by_cases he : e.1 = k
      · rw [if_pos he] at h
        have hkq : e = (k, q) := by
          obtain ⟨e1, e2⟩ := e
          simp only at he
          simp only [Option.some_inj] at h
          rw [he, h.symm]
        rw [← hkq]
        exact List.mem_cons_self _ _
      · rw [if_neg he] at h
        exact List.mem_cons_of_mem _ (ih h)

theorem findItem_mem (itemId : ℕ) (l : List Item) (it : Item)
    (h : findItem itemId l = some it) : it ∈ l := by
  induction l with
  | nil => simp [findItem] at h
  | cons x rest ih =>
      unfold findItem at h
      by_cases hx : x.id = itemId
      · rw [if_pos hx] at h
        rw [← Option.some_inj.mp h]
        exact List.mem_cons_self _ _
      · rw [if_neg hx] at h
        exact List.mem_cons_of_mem _ (ih h)

theorem mapPos_setPQ (m : List (ℕ × ℚ)) (k : ℕ) (v : ℚ)
    (hm : mapPos m) (hv : 0 < v) : mapPos (setPQ m k v) := by
  unfold setPQ
  split
  · intro e he
    obtain ⟨x, hx, hxe⟩ := List.mem_map.mp he
    by_cases hk : x.1 = k
    · rw [if_pos hk] at hxe
      rw [← hxe]
      exact hv
    · rw [if_neg hk] at hxe
      rw [← hxe]
      exact hm x hx
  · intro e he
    rcases List.mem_append.mp he with h | h
    · exact hm e h
    · rw [List.mem_singleton.mp h]
      exact hv

theorem mapPos_filter (m : List (ℕ × ℚ)) (p : ℕ × ℚ → Bool) (hm : mapPos m) :
    mapPos (m.filter p) := fun e he => hm e (List.mem_of_mem_filter he)

theorem updateFirstItem_mem (itemId : ℕ) (f : Item → Item) (l : List Item) :
    ∀ x ∈ updateFirstItem itemId f l, x ∈ l ∨ ∃ y ∈ l, x = f y := by
  induction l with
  | nil => simp [updateFirstItem]
  | cons it rest ih =>
      unfold updateFirstItem
      split
      · intro x hx
        rcases List.mem_cons.mp hx with h | h
        · exact Or.inr ⟨it, List.mem_cons_self _ _, h⟩
        · exact Or.inl (List.mem_cons_of_mem _ h)
      · intro x hx
        rcases List.mem_cons.mp hx with h | h
        · exact Or.inl (by rw [h]; exact List.mem_cons_self _ _)
        · rcases ih x h with h2 | ⟨y, hy, hxy⟩
          · exact Or.inl (List.mem_cons_of_mem _ h2)
          · exact Or.inr ⟨y, List.mem_cons_of_mem _ hy, hxy⟩

theorem snapshotQuantities_pos (pid : ℕ) (items : List Item)
    (h : ∀ it ∈ items, mapPos it.personQuantities) :
    ∀ e ∈ snapshotQuantities pid items, 0 < e.2 := by
  intro e he
  obtain ⟨it, hit, hfe⟩ := List.mem_filterMap.mp he
  cases hlk : pqLookup pid it.personQuantities with
  | none => rw [hlk] at hfe; simp at hfe
  | some q =>
      rw [hlk] at hfe
      dsimp only at hfe
      by_cases hq : q ≠ 0
      · rw [if_pos hq] at hfe
        have heq : e = (it.id, q) := (Option.some_inj.mp hfe).symm
        rw [heq]
        exact h it hit (pid, q) (pqLookup_mem pid _ q hlk)
      · rw [if_neg hq] at hfe
        simp at hfe

theorem restoreQuantities_pos (pid : ℕ) (iqs : List (ℕ × ℚ)) (items : List Item)
    (hiqs : ∀ e ∈ iqs, 0 < e.2) (hitems : ∀ it ∈ items, mapPos it.personQuantities) :
    ∀ it ∈ restoreQuantities pid iqs items, mapPos it.personQuantities := by
  induction iqs generalizing items with
  | nil => exact hitems
  | cons e rest ih =>
      have hstep : restoreQuantities pid (e :: rest) items =
          restoreQuantities pid rest (updateFirstItem e.1 (fun it => { it with personQuantities := setPQ it.personQuantities pid e.2 }) items) := rfl
      rw [hstep]
      refine ih _ (fun x hx => hiqs x (List.mem_cons_of_mem _ hx)) ?_
      intro it hit
      rcases updateFirstItem_mem _ _ _ it hit with h | ⟨y, hy, hxy⟩
      · exact hitems it h
      · rw [hxy]
        exact mapPos_setPQ _ _ _ (hitems y hy) (hiqs e (List.mem_cons_self _ _))

/-! ## Decimal numeral lemmas -/

theorem charToDigit_digitChar (d : ℕ) (h : d < 10) : charToDigit (digitChar d) = d := by
  interval_cases d <;> rfl

theorem isDigitChar_digitChar (d : ℕ) (h : d < 10) : isDigitChar (digitChar d) = true := by
  interval_cases d <;> rfl

theorem natToChars_ne_nil (n : ℕ) : natToChars n ≠ [] := by
  unfold natToChars
  split
  · simp
  · simp

theorem natToChars_digits (n : ℕ) : ∀ c ∈ natToChars n, isDigitChar c = true := by
  induction n using Nat.strong_induction_on with
  | _ n ih =>
      unfold natToChars
      split
      · intro c hc
        rw [List.mem_singleton.mp hc]
        exact isDigitChar_digitChar _ (by assumption)
      · intro c hc
        rcases List.mem_append.mp hc with h | h
        · exact ih (n / 10) (Nat.div_lt_self (by omega) (by omega)) c h
        · rw [List.mem_singleton.mp h]
          exact isDigitChar_digitChar _ (Nat.mod_lt _ (by omega))

theorem digitsToNat_append_digit (xs : List Char) (c : Char) :
    digitsToNat (xs ++ [c]) = 10 * digitsToNat xs + charToDigit c := by
  unfold digitsToNat
  rw [List.foldl_append]
  rfl

theorem digitsToNat_natToChars (n : ℕ) : digitsToNat (natToChars n) = n := by
  induction n using Nat.strong_induction_on with
  | _ n ih =>
      unfold natToChars
      split
      · show digitsToNat [digitChar n] = n
        unfold digitsToNat
        simp [charToDigit_digitChar n (by assumption)]
      · rw [digitsToNat_append_digit, ih (n / 10) (Nat.div_lt_self (by omega) (by omega)),
            charToDigit_digitChar _ (Nat.mod_lt _ (by omega))]
        omega

theorem jsNumberNat_natToChars (n : ℕ) : jsNumberNat (natToChars n) = some n := by
  unfold jsNumberNat
  rw [if_pos ⟨natToChars_ne_nil n, List.all_eq_true.mpr (natToChars_digits n)⟩,
      digitsToNat_natToChars]

theorem isEmpty_false_of_ne_nil {α : Type} (l : List α) (h : l ≠ []) : l.isEmpty = false := by
  cases l with
  | nil => exact absurd rfl h
  | cons x xs => rfl

theorem takeWhile_all {p : Char → Bool} (l : List Char) (h : ∀ c ∈ l, p c = true) :
    l.takeWhile p = l := by
  induction l with
  | nil => rfl
  | cons x xs ih =>
      rw [List.takeWhile_cons, if_pos (h x (List.mem_cons_self _ _))]
      rw [ih (fun c hc => h c (List.mem_cons_of_mem _ hc))]

theorem dropWhile_all {p : Char → Bool} (l : List Char) (h : ∀ c ∈ l, p c = true) :
    l.dropWhile p = [] := by
  induction l with
  | nil => rfl
  | cons x xs ih =>
      rw [List.dropWhile_cons, if_pos (h x (List.mem_cons_self _ _))]
      exact ih (fun c hc => h c (List.mem_cons_of_mem _ hc))

theorem takeWhile_append_stop {p : Char → Bool} (A B : List Char) (x : Char)
    (hA : ∀ c ∈ A, p c = true) (hx : p x = false) :
    (A ++ x :: B).takeWhile p = A ∧ (A ++ x :: B).dropWhile p = x :: B := by
  induction A with
  | nil =>
      constructor
      · rw [List.nil_append, List.takeWhile_cons, if_neg (by rw [hx]; exact Bool.false_ne_true)]
      · rw [List.nil_append, List.dropWhile_cons, if_neg (by rw [hx]; exact Bool.false_ne_true)]
  | cons a as ih =>
      have ih2 := ih (fun c hc => hA c (List.mem_cons_of_mem _ hc))
      constructor
      · rw [List.cons_append, List.takeWhile_cons, if_pos (hA a (List.mem_cons_self _ _)), ih2.1]
      · rw [List.cons_append, List.dropWhile_cons, if_pos (hA a (List.mem_cons_self _ _)), ih2.2]

theorem decimalStr_chars (n : ℕ) :
    ∀ c ∈ decimalStr n, isDigitChar c = true ∨ c = '.' := by
  intro c hc
  unfold decimalStr at hc
  dsimp only at hc
  by_cases h0 : n % 100 = 0
  · rw [if_pos h0] at hc
    exact Or.inl (natToChars_digits _ c hc)
  · rw [if_neg h0] at hc
    by_cases h1 : n % 100 % 10 = 0
    · rw [if_pos h1] at hc
      rcases List.mem_append.mp hc with h | h
      · exact Or.inl (natToChars_digits _ c h)
      · rcases List.mem_cons.mp h with h | h
        · exact Or.inr h
        · rw [List.mem_singleton.mp h]
          exact Or.inl (isDigitChar_digitChar _ (by omega))
    · rw [if_neg h1] at hc
      rcases List.mem_append.mp hc with h | h
      · exact Or.inl (natToChars_digits _ c h)
      · rcases List.mem_cons.mp h with h | h
        · exact Or.inr h
        · rcases List.mem_cons.mp h with h | h
          · rw [h]
            exact Or.inl (isDigitChar_digitChar _ (by omega))
          · rw [List.mem_singleton.mp h]
            exact Or.inl (isDigitChar_digitChar _ (by omega))

theorem parseFloatUnsigned_decimalStr (n : ℕ) :
    parseFloatUnsigned (decimalStr n) = some ((n : ℚ) / 100) := by
  unfold decimalStr
  dsimp only
  by_cases h0 : n % 100 = 0
  · rw [if_pos h0]
    unfold parseFloatUnsigned
    dsimp only
    rw [takeWhile_all _ (natToChars_digits _), dropWhile_all _ (natToChars_digits _)]
    simp only [List.head?_nil, reduceCtorEq, if_false]
    rw [if_neg (by rintro ⟨ha, -⟩
                   rw [isEmpty_false_of_ne_nil _ (natToChars_ne_nil _)] at ha
                   exact Bool.false_ne_true ha)]
    rw [digitsToNat_natToChars]
    norm_num [digitsToNat]
    rw [eq_div_iff (by norm_num : (100 : ℚ) ≠ 0)]
    exact_mod_cast congrArg (Nat.cast : ℕ → ℚ)
      (Nat.div_mul_cancel (Nat.dvd_of_mod_eq_zero h0))
  · rw [if_neg h0]
    by_cases h1 : n % 100 % 10 = 0
    · rw [if_pos h1]
      unfold parseFloatUnsigned
      dsimp only
      have hspan := takeWhile_append_stop (natToChars (n / 100))
        [digitChar (n % 100 / 10)] '.' (natToChars_digits _) rfl
      rw [show natToChars (n / 100) ++ ['.', digitChar (n % 100 / 10)] =
            natToChars (n / 100) ++ '.' :: [digitChar (n % 100 / 10)] from rfl]
      rw [hspan.1, hspan.2]
      simp only [List.head?_cons, List.tail_cons, if_true]
      rw [takeWhile_all _ (by intro c hc
                              rw [List.mem_singleton.mp hc]
                              exact isDigitChar_digitChar _ (by omega))]
      rw [if_neg (by rintro ⟨ha, -⟩
                     rw [isEmpty_false_of_ne_nil _ (natToChars_ne_nil _)] at ha
                     exact Bool.false_ne_true ha)]
      rw [digitsToNat_natToChars]
      have hd : digitsToNat [digitChar (n % 100 / 10)] = n % 100 / 10 := by
        unfold digitsToNat
        simp [charToDigit_digitChar _ (show n % 100 / 10 < 10 by omega)]
      rw [hd]
      simp only [List.length_cons, List.length_nil]
      have key : ((n / 100 * 100 + n % 100 / 10 * 10 : ℕ) : ℚ) = (n : ℚ) := by
        exact_mod_cast congrArg (Nat.cast : ℕ → ℚ) (show n / 100 * 100 + n % 100 / 10 * 10 = n by omega)
      rw [Option.some_inj, eq_div_iff (by norm_num : (100 : ℚ) ≠ 0)]
      push_cast at key
      push_cast
      ring_nf
      ring_nf at key
      linarith
    · rw [if_neg h1]
      unfold parseFloatUnsigned
      dsimp only
      have hspan := takeWhile_append_stop (natToChars (n / 100))
        [digitChar (n % 100 / 10), digitChar (n % 100 % 10)] '.' (natToChars_digits _) rfl
      rw [show natToChars (n / 100) ++
            ['.', digitChar (n % 100 / 10), digitChar (n % 100 % 10)] =
            natToChars (n / 100) ++
              '.' :: [digitChar (n % 100 / 10), digitChar (n % 100 % 10)] from rfl]
      rw [hspan.1, hspan.2]
      simp only [List.head?_cons, List.tail_cons, if_true]
      rw [takeWhile_all _ (by intro c hc
                              rcases List.mem_cons.mp hc with h | h
                              · rw [h]
                                exact isDigitChar_digitChar _ (by omega)
                              · rw [List.mem_singleton.mp h]
                                exact isDigitChar_digitChar _ (by omega))]
      rw [if_neg (by rintro ⟨ha, -⟩
                     rw [isEmpty_false_of_ne_nil _ (natToChars_ne_nil _)] at ha
                     exact Bool.false_ne_true ha)]
      rw [digitsToNat_natToChars]
      have hd : digitsToNat [digitChar (n % 100 / 10), digitChar (n % 100 % 10)] =
          10 * (n % 100 / 10) + n % 100 % 10 := by
        unfold digitsToNat
        simp [charToDigit_digitChar _ (show n % 100 / 10 < 10 by omega),
              charToDigit_digitChar _ (show n % 100 % 10 < 10 by omega), List.foldl]
      rw [hd]
      simp only [List.length_cons, List.length_nil]
      have key : ((n / 100 * 100 + (10 * (n % 100 / 10) + n % 100 % 10) : ℕ) : ℚ) = (n : ℚ) := by
        exact_mod_cast congrArg (Nat.cast : ℕ → ℚ)
          (show n / 100 * 100 + (10 * (n % 100 / 10) + n % 100 % 10) = n by omega)
      rw [Option.some_inj, eq_div_iff (by norm_num : (100 : ℚ) ≠ 0)]
      push_cast at key
      push_cast
      ring_nf
      ring_nf at key
      linarith

theorem parseFloatQ_of_digit_head (c : Char) (t : List Char) (h : isDigitChar c = true) :
    parseFloatQ (c :: t) = parseFloatUnsigned (c :: t) := by
  unfold parseFloatQ
  split
  · rename_i cs2 t2 heq
    injection heq with hc ht
    rw [hc] at h
    exact absurd h (by decide)
  · rename_i cs2 t2 heq
    injection heq with hc ht
    rw [hc] at h
    exact absurd h (by decide)
  · rfl

theorem decimalStr_head_digit (n : ℕ) :
    ∃ c t, decimalStr n = c :: t ∧ isDigitChar c = true := by
  have hne := natToChars_ne_nil (n / 100)
  cases hnc : natToChars (n / 100) with
  | nil => exact absurd hnc hne
  | cons c cs =>
      have hcdigit : isDigitChar c = true :=
        natToChars_digits (n / 100) c (by rw [hnc]; exact List.mem_cons_self _ _)
      unfold decimalStr
      dsimp only
      by_cases h0 : n % 100 = 0
      · rw [if_pos h0, hnc]
        exact ⟨c, cs, rfl, hcdigit⟩
      · rw [if_neg h0]
        by_cases h1 : n % 100 % 10 = 0
        · rw [if_pos h1, hnc]
          exact ⟨c, cs ++ ['.', digitChar (n % 100 / 10)], rfl, hcdigit⟩
        · rw [if_neg h1, hnc]
          exact ⟨c, cs ++ ['.', digitChar (n % 100 / 10), digitChar (n % 100 % 10)], rfl, hcdigit⟩

theorem parseFloatQ_decimalStr (n : ℕ) :
    parseFloatQ (decimalStr n) = some ((n : ℚ) / 100) := by
  obtain ⟨c, t, heq, hdig⟩ := decimalStr_head_digit n
  rw [heq, parseFloatQ_of_digit_head c t hdig, ← heq, parseFloatUnsigned_decimalStr]

/-- A nonnegative whole-cents rational prints as its decimal numeral. -/
theorem numToChars_eq_decimalStr (q : ℚ) (hq : 0 ≤ q) (hc : IsCent q) :
    numToChars q = decimalStr ((q * 100).num.toNat) ∧
    (((q * 100).num.toNat : ℕ) : ℚ) = q * 100 := by
  constructor
  · unfold numToChars
    rw [if_neg (not_lt.mpr hq)]
  · have hden : ((q * 100).num : ℚ) = q * 100 := by
      have := Rat.num_div_den (q * 100)
      rw [IsCent] at hc
      rw [hc] at this
      simpa using this
    have hnum : 0 ≤ (q * 100).num := Rat.num_nonneg.mpr (by positivity)
    have h3 : ((q * 100).num.toNat : ℤ) = (q * 100).num := Int.toNat_of_nonneg hnum
    calc (((q * 100).num.toNat : ℕ) : ℚ) = (((q * 100).num.toNat : ℤ) : ℚ) := by norm_cast
    _ = ((q * 100).num : ℚ) := by rw [h3]
    _ = q * 100 := hden

/-- Round-trip for the number serialization: parsing the printed form of
a nonnegative whole-cents rational recovers it exactly. -/
theorem parseFloatQ_numToChars (q : ℚ) (hq : 0 ≤ q) (hc : IsCent q) :
    parseFloatQ (numToChars q) = some q := by
  obtain ⟨h1, h2⟩ := numToChars_eq_decimalStr q hq hc
  rw [h1, parseFloatQ_decimalStr, h2]
  congr 1
  field_simp

theorem round2_pos (q : ℚ) (h : 1 / 100 < q) : 0 < round2 q := by
  unfold round2 jsRound
  have h1 : (1 : ℤ) ≤ ⌊q * 100 + 1 / 2⌋ := by
    rw [Int.le_floor]
    push_cast
    linarith
  have h2 : (0 : ℚ) < ((⌊q * 100 + 1 / 2⌋ : ℤ) : ℚ) := by
    exact_mod_cast lt_of_lt_of_le Int.zero_lt_one h1
  positivity

theorem assignQtys_pos (qs : List ℚ) (idx : ℕ) (ps : List Person) :
    ∀ e ∈ assignQtys qs idx ps, 0 < e.2 := by
  induction ps generalizing idx with
  | nil => simp [assignQtys]
  | cons p rest ih =>
      unfold assignQtys
      intro e he
      rcases List.mem_append.mp he with h | h
      · by_cases hc : qs.getD idx 0 > 1 / 100
        · rw [if_pos hc] at h
          rw [List.mem_singleton.mp h]
          exact round2_pos _ hc
        · rw [if_neg hc] at h
          simp at h
      · exact ih (idx + 1) e h

theorem shuffleItem_mapPos (rand : ℕ → ℚ) (ppl : List Person) (k : ℕ) (it : Item)
    (h : mapPos it.personQuantities) :
    mapPos (shuffleItem rand ppl k it).1.personQuantities := by
  unfold shuffleItem
  dsimp only
  split
  · exact h
  · exact fun e he => assignQtys_pos _ _ _ e he

theorem shuffleItems_mapPos (rand : ℕ → ℚ) (ppl : List Person) :
    ∀ (k : ℕ) (items : List Item), (∀ it ∈ items, mapPos it.personQuantities) →
    ∀ it ∈ (shuffleItems rand ppl k items).1, mapPos it.personQuantities := by
  intro k items
  induction items generalizing k with
  | nil =>
      intro _ it hit
      simp [shuffleItems] at hit
  | cons x rest ih =>
      intro h it hit
      unfold shuffleItems at hit
      dsimp only at hit
      rcases List.mem_cons.mp hit with h1 | h1
      · rw [h1]
        exact shuffleItem_mapPos _ _ _ _ (h x (List.mem_cons_self _ _))
      · exact ih _ (fun y hy => h y (List.mem_cons_of_mem _ hy)) it h1

/-- C5 (amended): every mutation operation of the store preserves strict
positivity of all stored quantities — a quantity update with a value
that is unparseable or not positive removes the key instead — while URL
decoding (see the counterexample) does not enforce this. -/
theorem C5_store_ops_preserve_positivity (s : AppState) (hinv : invPos s)
    (nameRaw : String) (priceRaw : Option ℚ) (itemId pid : ℕ) (qtyRaw : Option ℚ)
    (rand : ℕ → ℚ) :
    invPos (handleAddPerson nameRaw s) ∧
    invPos (handleAddItem nameRaw priceRaw s) ∧
    invPos (deletePerson pid s) ∧
    invPos (deleteItem itemId s) ∧
    invPos (updatePersonQuantity itemId pid qtyRaw s) ∧
    invPos (splitEvenly itemId s) ∧
    invPos (clearAllQuantities itemId s) ∧
    invPos (editPersonSave pid nameRaw s) ∧
    invPos (shuffleQuantities rand s) ∧
    invPos (performUndo s) ∧
    invPos (clearState s) := by
  obtain ⟨hit, hun⟩ := hinv
  refine ⟨?_, ?_, ?_, ?_, ?_, ?_, ?_, ?_, ?_, ?_, ?_⟩
  · unfold handleAddPerson
    dsimp only
    split_ifs <;> exact ⟨hit, hun⟩
  · unfold handleAddItem
    dsimp only
    cases priceRaw with
    | none => exact ⟨hit, hun⟩
    | some price =>
        dsimp only
        split_ifs with h1 h2
        · exact ⟨hit, hun⟩
        · refine ⟨?_, hun⟩
          intro it2 hit2
          rcases List.mem_append.mp hit2 with h | h
          · exact hit it2 h
          · rw [List.mem_singleton.mp h]
            intro e he
            simp at he
        · exact ⟨hit, hun⟩
  · unfold deletePerson
    cases hf : findPerson pid s.people with
    | none => exact ⟨hit, hun⟩
    | some person =>
        dsimp only
        refine ⟨?_, ?_⟩
        · intro it2 hit2
          obtain ⟨y, hy, hye⟩ := List.mem_map.mp hit2
          rw [← hye]
          exact mapPos_filter _ _ (hit y hy)
        · intro u hu
          rcases List.mem_cons.mp hu with h | h
          · rw [h]
            exact snapshotQuantities_pos pid s.items hit
          · exact hun u h
  · unfold deleteItem
    cases hf : findItem itemId s.items with
    | none => exact ⟨hit, hun⟩
    | some it0 =>
        dsimp only
        refine ⟨fun it2 hit2 => hit it2 (List.mem_of_mem_filter hit2), ?_⟩
        intro u hu
        rcases List.mem_cons.mp hu with h | h
        · rw [h]
          exact hit it0 (findItem_mem _ _ _ hf)
        · exact hun u h
  · unfold updatePersonQuantity
    cases hf : findItem itemId s.items with
    | none => exact ⟨hit, hun⟩
    | some it0 =>
        dsimp only
        refine ⟨?_, hun⟩
        intro it2 hit2
        rcases updateFirstItem_mem _ _ _ it2 hit2 with h | ⟨y, hy, hxy⟩
        · exact hit it2 h
        · rw [hxy]
          by_cases hq : 0 < qtyRaw.getD 0
          · rw [if_pos hq]
            exact mapPos_setPQ _ _ _ (hit y hy) hq
          · rw [if_neg hq]
            exact mapPos_filter _ _ (hit y hy)
  · unfold splitEvenly
    cases hf : findItem itemId s.items with
    | none => exact ⟨hit, hun⟩
    | some it0 =>
        dsimp only
        by_cases hp : s.people = []
        · rw [if_pos hp]
          exact ⟨hit, hun⟩
        · rw [if_neg hp]
          refine ⟨?_, hun⟩
          intro it2 hit2
          rcases updateFirstItem_mem _ _ _ it2 hit2 with h | ⟨y, hy, hxy⟩
          · exact hit it2 h
          · rw [hxy]
            intro e he
            obtain ⟨p, hp2, hpe⟩ := List.mem_map.mp he
            rw [← hpe]
            norm_num
  · unfold clearAllQuantities
    cases hf : findItem itemId s.items with
    | none => exact ⟨hit, hun⟩
    | some it0 =>
        dsimp only
        refine ⟨?_, hun⟩
        intro it2 hit2
        rcases updateFirstItem_mem _ _ _ it2 hit2 with h | ⟨y, hy, hxy⟩
        · exact hit it2 h
        · rw [hxy]
          intro e he
          simp at he
  · unfold editPersonSave
    cases hf : findPerson pid s.people with
    | none => exact ⟨hit, hun⟩
    | some person =>
        dsimp only
        split_ifs <;> exact ⟨hit, hun⟩
  · unfold shuffleQuantities
    split_ifs with h
    · exact ⟨hit, hun⟩
    · exact ⟨shuffleItems_mapPos rand s.people 0 s.items hit, hun⟩
  · unfold performUndo
    cases hst : s.undoStack with
    | nil => exact ⟨hit, hun⟩
    | cons action rest =>
        have hhead := hun action (by rw [hst]; exact List.mem_cons_self _ _)
        have hrest : ∀ u ∈ rest, undoEntryPos u :=
          fun u hu => hun u (by rw [hst]; exact List.mem_cons_of_mem _ hu)
        cases action with
        | person p iqs =>
            dsimp only
            exact ⟨restoreQuantities_pos p.id iqs s.items hhead hit, hrest⟩
        | item it2 =>
            dsimp only
            refine ⟨?_, hrest⟩
            intro x hx
            rcases List.mem_append.mp hx with h | h
            · exact hit x h
            · rw [List.mem_singleton.mp h]
              exact hhead
  · exact ⟨fun it2 h => absurd h (List.not_mem_nil it2),
           fun u h => absurd h (List.not_mem_nil u)⟩

/-- Counterexample to C5 as stated: decoding a shared URL stores the
quantity `parseFloat("-5") = -5` without any positivity check, so a
loaded state can carry a quantity-map value that is not positive. -/
theorem C5_counterexample :
    ∃ u, loadStateFromURL c5Params = some u ∧
      ∃ it ∈ u.items, ∃ e ∈ it.personQuantities, e.2 ≤ 0 := by
  refine ⟨_, rfl, ?_⟩
  refine ⟨_, List.mem_cons_self _ _, (0, _), List.mem_cons_self _ _, ?_⟩
  have h1 : List.takeWhile isDigitChar ['5'] = ['5'] := rfl
  have h2 : List.dropWhile isDigitChar ['5'] = [] := rfl
  have h3 : digitsToNat ['5'] = 5 := rfl
  have h4 : digitsToNat [] = 0 := rfl
  rw [h1, h2, h3]
  simp only [List.head?_nil, reduceCtorEq, if_false, h4]
  norm_num

/-- Witness for the amended C5 at `c5WitState`. -/
theorem C5_witness :
    invPos (handleAddPerson "Bea" c5WitState) ∧
    invPos (handleAddItem "Bea" (some 3) c5WitState) ∧
    invPos (deletePerson 0 c5WitState) ∧
    invPos (deleteItem 0 c5WitState) ∧
    invPos (updatePersonQuantity 0 0 (some (-2)) c5WitState) ∧
    invPos (splitEvenly 0 c5WitState) ∧
    invPos (clearAllQuantities 0 c5WitState) ∧
    invPos (editPersonSave 0 "Bea" c5WitState) ∧
    invPos (shuffleQuantities (fun _ => 0) c5WitState) ∧
    invPos (performUndo c5WitState) ∧
    invPos (clearState c5WitState) :=
  C5_store_ops_preserve_positivity c5WitState (by decide) "Bea" (some 3) 0 0
    (some (-2)) (fun _ => 0)

/-! ## C4: delete person then undo -/

theorem findPerson_spec (pid : ℕ) (ps : List Person) (p : Person)
    (h : findPerson pid ps = some p) : p ∈ ps ∧ p.id = pid := by
  induction ps with
  | nil => simp [findPerson] at h
  | cons x rest ih =>
      unfold findPerson at h
      by_cases hx : x.id = pid
      · rw [if_pos hx] at h
        rw [← Option.some_inj.mp h]
        exact ⟨List.mem_cons_self _ _, hx⟩
      · rw [if_neg hx] at h
        obtain ⟨h1, h2⟩ := ih h
        exact ⟨List.mem_cons_of_mem _ h1, h2⟩

theorem getD_map_item (f : Item → Item) (l : List Item) (i : ℕ) (hi : i < l.length) :
    (l.map f).getD i dummyItem = f (l.getD i dummyItem) := by
  induction l generalizing i with
  | nil => simp at hi
  | cons x rest ih =>
      match i with
      | 0 => rfl
      | j + 1 =>
          simp only [List.map_cons, List.getD_cons_succ]
          exact ih j (by simpa using hi)

theorem pqLookup_none_of_not_mem (k : ℕ) (m : List (ℕ × ℚ))
    (h : k ∉ m.map Prod.fst) : pqLookup k m = none := by
  induction m with
  | nil => rfl
  | cons e rest ih =>
      unfold pqLookup
      rw [if_neg (fun he => h (by rw [← he]; exact List.mem_cons_self _ _)),
          ih (fun hk => h (List.mem_cons_of_mem _ hk))]

theorem pqLookup_setPQ_same (m : List (ℕ × ℚ)) (k : ℕ) (v : ℚ) :
    pqLookup k (setPQ m k v) = some v := by
  unfold setPQ
  split
  · rename_i hsome
    induction m with
    | nil => simp [pqLookup] at hsome
    | cons e rest ih =>
        by_cases he : e.1 = k
        · simp only [List.map_cons, if_pos he]
          unfold pqLookup
          rw [if_pos rfl]
        · simp only [List.map_cons, if_neg he]
          unfold pqLookup
          rw [if_neg he]
          exact ih (by unfold pqLookup at hsome; rwa [if_neg he] at hsome)
  · rename_i hnone
    induction m with
    | nil =>
        rw [List.nil_append]
        unfold pqLookup
        rw [if_pos rfl]
    | cons e rest ih =>
        have he : e.1 ≠ k := by
          intro hek
          unfold pqLookup at hnone
          rw [if_pos hek] at hnone
          simp at hnone
        rw [List.cons_append]
        unfold pqLookup
        rw [if_neg he]
        exact ih (by unfold pqLookup at hnone; rwa [if_neg he] at hnone)

theorem pqLookup_filter_out (k : ℕ) (m : List (ℕ × ℚ)) :
    pqLookup k (m.filter (fun e => e.1 ≠ k)) = none := by
  apply pqLookup_none_of_not_mem
  intro hk
  obtain ⟨e, he, hek⟩ := List.mem_map.mp hk
  have := List.of_mem_filter he
  rw [hek] at this
  simp at this

theorem updateFirstItem_map_id (itemId : ℕ) (f : Item → Item) (l : List Item)
    (hf : ∀ y, (f y).id = y.id) :
    (updateFirstItem itemId f l).map Item.id = l.map Item.id := by
  induction l with
  | nil => rfl
  | cons x rest ih =>
      unfold updateFirstItem
      split
      · simp [hf]
      · simp [ih]

theorem updateFirstItem_length2 (itemId : ℕ) (f : Item → Item) (l : List Item) :
    (updateFirstItem itemId f l).length = l.length := updateFirstItem_length itemId f l

theorem restoreQuantities_length (pid : ℕ) (iqs : List (ℕ × ℚ)) (items : List Item) :
    (restoreQuantities pid iqs items).length = items.length := by
  induction iqs generalizing items with
  | nil => rfl
  | cons e rest ih =>
      have hstep : restoreQuantities pid (e :: rest) items =
          restoreQuantities pid rest (updateFirstItem e.1 (fun it => { it with personQuantities := setPQ it.personQuantities pid e.2 }) items) := rfl
      rw [hstep, ih, updateFirstItem_length]

theorem snapshot_keys (pid : ℕ) (items : List Item) :
    ∀ e ∈ snapshotQuantities pid items, e.1 ∈ items.map Item.id := by
  intro e he
  obtain ⟨it, hit, hfe⟩ := List.mem_filterMap.mp he
  cases hlk : pqLookup pid it.personQuantities with
  | none =>
      rw [hlk] at hfe
      simp at hfe
  | some q =>
      rw [hlk] at hfe
      dsimp only at hfe
      by_cases hq : q ≠ 0
      · rw [if_pos hq] at hfe
        rw [← Option.some_inj.mp hfe]
        exact List.mem_map_of_mem Item.id hit
      · rw [if_neg hq] at hfe
        simp at hfe

theorem snapshot_keys_nodup (pid : ℕ) (items : List Item)
    (hnodup : (items.map Item.id).Nodup) :
    ((snapshotQuantities pid items).map Prod.fst).Nodup := by
  induction items with
  | nil => simp [snapshotQuantities]
  | cons x rest ih =>
      simp only [List.map_cons, List.nodup_cons] at hnodup
      unfold snapshotQuantities
      rw [List.filterMap_cons]
      cases hlk : pqLookup pid x.personQuantities with
      | none =>
          dsimp only
          exact ih hnodup.2
      | some q =>
          dsimp only
          by_cases hq : q ≠ 0
          · rw [if_pos hq]
            dsimp only
            rw [List.map_cons, List.nodup_cons]
            refine ⟨?_, ih hnodup.2⟩
            intro hmem
            obtain ⟨e, he, hee⟩ := List.mem_map.mp hmem
            have := snapshot_keys pid rest e he
            rw [hee] at this
            exact hnodup.1 this
          · rw [if_neg hq]
            dsimp only
            exact ih hnodup.2

theorem snapshot_lookup (pid : ℕ) (items : List Item)
    (hnodup : (items.map Item.id).Nodup) (i : ℕ) (hi : i < items.length) :
    pqLookup (items.getD i dummyItem).id (snapshotQuantities pid items) =
      truthyLookup pid (items.getD i dummyItem).personQuantities := by
  induction items generalizing i with
  | nil => simp at hi
  | cons x rest ih =>
      simp only [List.map_cons, List.nodup_cons] at hnodup
      unfold snapshotQuantities
      rw [List.filterMap_cons]
      match i with
      | 0 =>
          simp only [List.getD_cons_zero]
          cases hlk : pqLookup pid x.personQuantities with
          | none =>
              dsimp only
              rw [truthyLookup, hlk]
              apply pqLookup_none_of_not_mem
              intro hmem
              obtain ⟨e, he, hee⟩ := List.mem_map.mp hmem
              have hsub := snapshot_keys pid rest e (by
                unfold snapshotQuantities
                exact he)
              rw [hee] at hsub
              exact hnodup.1 hsub
          | some q =>
              dsimp only
              have htr : truthyLookup pid x.personQuantities =
                  if q ≠ 0 then some q else none := by
                rw [truthyLookup, hlk]
              rw [htr]
              by_cases hq : q ≠ 0
              · rw [if_pos hq, if_pos hq]
                dsimp only
                unfold pqLookup
                rw [if_pos rfl]
              · rw [if_neg hq, if_neg hq]
                dsimp only
                apply pqLookup_none_of_not_mem
                intro hmem
                obtain ⟨e, he, hee⟩ := List.mem_map.mp hmem
                have hsub := snapshot_keys pid rest e (by
                  unfold snapshotQuantities
                  exact he)
                rw [hee] at hsub
                exact hnodup.1 hsub
      | j + 1 =>
          simp only [List.getD_cons_succ]
          have hj : j < rest.length := by simpa using hi
          have htarget : (rest.getD j dummyItem).id ∈ rest.map Item.id :=
            List.mem_map_of_mem Item.id (getD_mem rest dummyItem j hj)
          have hne : x.id ≠ (rest.getD j dummyItem).id := by
            intro hEq
            rw [hEq] at hnodup
            exact hnodup.1 htarget
          cases hlk : pqLookup pid x.personQuantities with
          | none =>
              dsimp only
              have := ih hnodup.2 j hj
              unfold snapshotQuantities at this
              exact this
          | some q =>
              dsimp only
              by_cases hq : q ≠ 0
              · rw [if_pos hq]
                dsimp only
                unfold pqLookup
                rw [if_neg hne]
                have := ih hnodup.2 j hj
                unfold snapshotQuantities at this
                exact this
              · rw [if_neg hq]
                dsimp only
                have := ih hnodup.2 j hj
                unfold snapshotQuantities at this
                exact this

theorem pqLookup_cons (k : ℕ) (e : ℕ × ℚ) (rest : List (ℕ × ℚ)) :
    pqLookup k (e :: rest) = if e.1 = k then some e.2 else pqLookup k rest := rfl

theorem restoreQuantities_getD (pid : ℕ) (iqs : List (ℕ × ℚ)) (items : List Item)
    (hnodup : (items.map Item.id).Nodup) (hkeys : (iqs.map Prod.fst).Nodup)
    (i : ℕ) (hi : i < items.length) :
    (restoreQuantities pid iqs items).getD i dummyItem =
      match pqLookup (items.getD i dummyItem).id iqs with
      | some q =>
          { items.getD i dummyItem with
            personQuantities := setPQ (items.getD i dummyItem).personQuantities pid q }
      | none => items.getD i dummyItem := by
  induction iqs generalizing items with
  | nil => rfl
  | cons e rest ih =>
      simp only [List.map_cons, List.nodup_cons] at hkeys
      have hstep : restoreQuantities pid (e :: rest) items =
          restoreQuantities pid rest (updateFirstItem e.1 (fun it => { it with personQuantities := setPQ it.personQuantities pid e.2 }) items) := rfl
      rw [hstep]
      have hids : (updateFirstItem e.1 (fun it => { it with personQuantities := setPQ it.personQuantities pid e.2 }) items).map Item.id = items.map Item.id :=
        updateFirstItem_map_id _ _ _ (fun y => rfl)
      have hlen : (updateFirstItem e.1 (fun it => { it with personQuantities := setPQ it.personQuantities pid e.2 }) items).length = items.length :=
        updateFirstItem_length _ _ _
      rw [ih _ (by rw [hids]; exact hnodup) hkeys.2 (by rw [hlen]; exact hi)]
      rw [updateFirstItem_getD _ _ _ hnodup i hi]
      by_cases hcase : (items.getD i dummyItem).id = e.1
      · rw [if_pos hcase]
        dsimp only
        have hnone : pqLookup (items.getD i dummyItem).id rest = none := by
          apply pqLookup_none_of_not_mem
          rw [hcase]
          exact hkeys.1
        rw [hnone]
        rw [pqLookup_cons, if_pos hcase.symm]
      · rw [if_neg hcase]
        rw [pqLookup_cons, if_neg (fun h => hcase h.symm)]

theorem truthyLookup_eq_of_pos (pid : ℕ) (m : List (ℕ × ℚ)) (h : mapPos m) :
    truthyLookup pid m = pqLookup pid m := by
  unfold truthyLookup
  cases hlk : pqLookup pid m with
  | none => rfl
  | some q =>
      have hq : q ≠ 0 := ne_of_gt (h (pid, q) (pqLookup_mem pid m q hlk))
      dsimp only
      rw [if_pos hq]

/-- C4: removing a person and immediately undoing restores that person
(same id, same name — the very person object found before removal), and
every item — all items still exist — again answers exactly the same
quantity lookup for that person id as before the removal.  Assumes the
store's id-uniqueness and quantity-positivity invariants. -/
theorem C4_delete_person_undo (s : AppState) (pid : ℕ) (p0 : Person)
    (hfind : findPerson pid s.people = some p0)
    (hnodupItems : (s.items.map Item.id).Nodup)
    (hpos : ∀ it ∈ s.items, mapPos it.personQuantities) :
    p0 ∈ (performUndo (deletePerson pid s)).people ∧
    (performUndo (deletePerson pid s)).items.length = s.items.length ∧
    ∀ i, i < s.items.length →
      ((performUndo (deletePerson pid s)).items.getD i dummyItem).id =
        (s.items.getD i dummyItem).id ∧
      pqLookup pid
          ((performUndo (deletePerson pid s)).items.getD i dummyItem).personQuantities =
        pqLookup pid (s.items.getD i dummyItem).personQuantities := by
  have hpid : p0.id = pid := (findPerson_spec pid s.people p0 hfind).2
  have hdel : deletePerson pid s =
      { s with
        undoStack := UndoEntry.person p0 (snapshotQuantities pid s.items) :: s.undoStack,
        people := s.people.filter (fun p => p.id ≠ pid),
        items := s.items.map (fun it => { it with personQuantities := it.personQuantities.filter (fun e => e.1 ≠ pid) }) } := by
    unfold deletePerson
    rw [hfind]
  have hundo : performUndo (deletePerson pid s) =
      { s with
        undoStack := s.undoStack,
        people := s.people.filter (fun p => p.id ≠ pid) ++ [p0],
        items := restoreQuantities p0.id (snapshotQuantities pid s.items)
          (s.items.map (fun it => { it with personQuantities := it.personQuantities.filter (fun e => e.1 ≠ pid) })) } := by
    rw [hdel]
    rfl
  rw [hundo]
  have hmapids : ((s.items.map (fun it => { it with personQuantities := it.personQuantities.filter (fun e => e.1 ≠ pid) })).map Item.id) = s.items.map Item.id := by
    rw [List.map_map]
    rfl
  refine ⟨List.mem_append_right _ (List.mem_singleton_self p0), ?_, ?_⟩
  · show (restoreQuantities _ _ _).length = _
    rw [restoreQuantities_length, List.length_map]
  · intro i hi
    show ((restoreQuantities _ _ _).getD i dummyItem).id = _ ∧
      pqLookup pid ((restoreQuantities _ _ _).getD i dummyItem).personQuantities = _
    rw [restoreQuantities_getD p0.id _ _ (by rw [hmapids]; exact hnodupItems)
        (snapshot_keys_nodup pid s.items hnodupItems) i (by rw [List.length_map]; exact hi)]
    rw [getD_map_item _ s.items i hi]
    have hxmem := getD_mem s.items dummyItem i hi
    have hidprune : ({ s.items.getD i dummyItem with personQuantities := (s.items.getD i dummyItem).personQuantities.filter (fun e => e.1 ≠ pid) } : Item).id = (s.items.getD i dummyItem).id := rfl
    rw [hidprune, hpid]
    rw [snapshot_lookup pid s.items hnodupItems i hi]
    rw [truthyLookup_eq_of_pos pid _ (hpos _ hxmem)]
    cases hlk : pqLookup pid (s.items.getD i dummyItem).personQuantities with
    | none =>
        dsimp only
        exact ⟨rfl, pqLookup_filter_out pid _⟩
    | some q =>
        dsimp only
        exact ⟨rfl, by rw [pqLookup_setPQ_same]⟩

/-- Witness for C4: deleting Amy (id 0) and undoing restores her and her
quantity entries. -/
theorem C4_witness :
    (⟨0, "Amy"⟩ : Person) ∈ (performUndo (deletePerson 0 c4State)).people ∧
    (performUndo (deletePerson 0 c4State)).items.length = c4State.items.length ∧
    ∀ i, i < c4State.items.length →
      ((performUndo (deletePerson 0 c4State)).items.getD i dummyItem).id =
        (c4State.items.getD i dummyItem).id ∧
      pqLookup 0
          ((performUndo (deletePerson 0 c4State)).items.getD i dummyItem).personQuantities =
        pqLookup 0 (c4State.items.getD i dummyItem).personQuantities :=
  C4_delete_person_undo c4State 0 ⟨0, "Amy"⟩ (by decide) (by decide) (by decide)

/-! ## C8: shuffle preserves per-item totals -/

theorem genQtys_length (rand : ℕ → ℚ) : ∀ (n k : ℕ) (T : ℚ),
    (genQtys rand k n T).1.length = n + 1 := by
  intro n
  induction n with
  | zero => intro k T; rfl
  | succ n ih =>
      intro k T
      unfold genQtys
      dsimp only
      rw [List.length_cons, ih]

theorem genQtys_sum (rand : ℕ → ℚ) : ∀ (n k : ℕ) (T : ℚ),
    (genQtys rand k n T).1.sum = T := by
  intro n
  induction n with
  | zero => intro k T; simp [genQtys]
  | succ n ih =>
      intro k T
      unfold genQtys
      dsimp only
      rw [List.sum_cons, ih]
      ring

theorem genQtys_nonneg (rand : ℕ → ℚ) (hr : ∀ m, 0 ≤ rand m ∧ rand m < 1) :
    ∀ (n k : ℕ) (T : ℚ), 0 ≤ T → ∀ q ∈ (genQtys rand k n T).1, 0 ≤ q := by
  intro n
  induction n with
  | zero =>
      intro k T hT q hq
      rw [List.mem_singleton.mp hq]
      exact hT
  | succ n ih =>
      intro k T hT q hq
      unfold genQtys at hq
      dsimp only at hq
      have hr1 := hr k
      rcases List.mem_cons.mp hq with h | h
      · rw [h]
        exact mul_nonneg hr1.1 hT
      · refine ih (k + 1) (T - rand k * T) ?_ q h
        nlinarith [hr1.1, hr1.2, hT]

theorem getD_set (l : List ℚ) (i j : ℕ) (v : ℚ) :
    (l.set i v).getD j 0 = if i = j ∧ i < l.length then v else l.getD j 0 := by
  induction l generalizing i j with
  | nil => simp
  | cons x rest ih =>
      match i, j with
      | 0, 0 => simp
      | 0, j + 1 => simp
      | i + 1, 0 => simp [List.set_cons_succ]
      | i + 1, j + 1 =>
          simp only [List.set_cons_succ, List.getD_cons_succ, ih,
            List.length_cons]
          by_cases hij : i = j ∧ i < rest.length
          · rw [if_pos hij, if_pos ⟨by omega, by omega⟩]
          · rw [if_neg hij, if_neg (by omega)]

theorem sum_set (l : List ℚ) (i : ℕ) (v : ℚ) (hi : i < l.length) :
    (l.set i v).sum = l.sum + v - l.getD i 0 := by
  induction l generalizing i with
  | nil => simp at hi
  | cons x rest ih =>
      match i with
      | 0 => simp [List.set_cons_zero]; ring
      | i + 1 =>
          simp only [List.set_cons_succ, List.sum_cons, List.getD_cons_succ]
          rw [ih i (by simpa using hi)]
          ring

theorem listSwap_length (l : List ℚ) (a b : ℕ) : (listSwap l a b).length = l.length := by
  unfold listSwap
  simp

theorem listSwap_sum (l : List ℚ) (a b : ℕ) (ha : a < l.length) (hb : b < l.length) :
    (listSwap l a b).sum = l.sum := by
  unfold listSwap
  dsimp only
  rw [sum_set _ _ _ (by simpa using hb)]
  rw [sum_set _ _ _ ha]
  rw [getD_set]
  by_cases hab : a = b
  · rw [if_pos ⟨hab, ha⟩]
    ring
  · rw [if_neg (by tauto)]
    ring

theorem listSwap_nonneg (l : List ℚ) (a b : ℕ) (h : ∀ x ∈ l, 0 ≤ x) :
    ∀ x ∈ listSwap l a b, 0 ≤ x := by
  have hget : ∀ i : ℕ, 0 ≤ l.getD i 0 := by
    intro i
    by_cases hi : i < l.length
    · exact h _ (getD_mem l 0 i hi)
    · rw [List.getD_eq_default _ _ (by omega)]
  intro x hx
  unfold listSwap at hx
  dsimp only at hx
  rcases List.mem_or_eq_of_mem_set hx with h2 | h2
  · rcases List.mem_or_eq_of_mem_set h2 with h3 | h3
    · exact h x h3
    · rw [h3]
      exact hget b
  · rw [h2]
    exact hget a

theorem ratFloorNat_le (q : ℚ) (m : ℕ) (h : q < m + 1) : ratFloorNat q ≤ m := by
  unfold ratFloorNat
  have hfloor : ⌊q⌋ < (m : ℤ) + 1 := by
    rw [Int.floor_lt]
    push_cast
    exact h
  omega

theorem fyAux_props (rand : ℕ → ℚ) (hr : ∀ m, 0 ≤ rand m ∧ rand m < 1) :
    ∀ (i k : ℕ) (l : List ℚ), i < l.length →
    (fyAux rand k i l).1.length = l.length ∧
    (fyAux rand k i l).1.sum = l.sum ∧
    ((∀ x ∈ l, 0 ≤ x) → ∀ x ∈ (fyAux rand k i l).1, 0 ≤ x) := by
  intro i
  induction i with
  | zero => exact fun k l _ => ⟨rfl, rfl, fun h => h⟩
  | succ i ih =>
      intro k l hi
      unfold fyAux
      have hrk := hr k
      have hj : ratFloorNat (rand k * (i + 2)) ≤ i + 1 := by
        apply ratFloorNat_le
        have hpos : (0 : ℚ) < (i : ℚ) + 2 := by positivity
        calc rand k * ((i : ℚ) + 2) < 1 * ((i : ℚ) + 2) :=
              mul_lt_mul_of_pos_right hrk.2 hpos
        _ = ((i + 1 : ℕ) : ℚ) + 1 := by push_cast; ring
      have hjlt : ratFloorNat (rand k * (i + 2)) < l.length := by omega
      have hswaplen := listSwap_length l (i + 1) (ratFloorNat (rand k * (i + 2)))
      have hrec := ih (k + 1) (listSwap l (i + 1) (ratFloorNat (rand k * (i + 2))))
        (by rw [hswaplen]; omega)
      refine ⟨?_, ?_, ?_⟩
      · rw [hrec.1, hswaplen]
      · rw [hrec.2.1, listSwap_sum _ _ _ hi hjlt]
      · intro hnn
        exact hrec.2.2 (listSwap_nonneg _ _ _ hnn)

theorem fyShuffle_props (rand : ℕ → ℚ) (hr : ∀ m, 0 ≤ rand m ∧ rand m < 1)
    (k : ℕ) (l : List ℚ) :
    (fyShuffle rand k l).1.length = l.length ∧
    (fyShuffle rand k l).1.sum = l.sum ∧
    ((∀ x ∈ l, 0 ≤ x) → ∀ x ∈ (fyShuffle rand k l).1, 0 ≤ x) := by
  unfold fyShuffle
  cases hlen : l.length with
  | zero =>
      dsimp only
      exact ⟨hlen, rfl, fun h => h⟩
  | succ n =>
      dsimp only
      have h := fyAux_props rand hr n k l (by omega)
      exact ⟨by rw [h.1, hlen], h.2.1, h.2.2⟩

theorem round2_err (q : ℚ) : |round2 q - q| ≤ 1 / 200 := by
  unfold round2 jsRound
  have h1 : ((⌊q * 100 + 1 / 2⌋ : ℤ) : ℚ) ≤ q * 100 + 1 / 2 := Int.floor_le _
  have h2 : q * 100 + 1 / 2 < ((⌊q * 100 + 1 / 2⌋ : ℤ) : ℚ) + 1 := Int.lt_floor_add_one _
  rw [abs_le]
  constructor <;> [skip; skip] <;> nlinarith [h1, h2]

theorem drop_eq_getD_cons (l : List ℚ) (i : ℕ) (hi : i < l.length) :
    l.drop i = l.getD i 0 :: l.drop (i + 1) := by
  induction l generalizing i with
  | nil => simp at hi
  | cons x rest ih =>
      match i with
      | 0 => rfl
      | i + 1 =>
          simp only [List.drop_succ_cons, List.getD_cons_succ]
          exact ih i (by simpa using hi)

theorem assignQtys_sum_bound (qs : List ℚ) (hnn : ∀ x ∈ qs, 0 ≤ x) :
    ∀ (ps : List Person) (idx : ℕ), idx + ps.length = qs.length →
    |(pqValues (assignQtys qs idx ps)).sum - (qs.drop idx).sum| ≤ (ps.length : ℚ) / 100 := by
  intro ps
  induction ps with
  | nil =>
      intro idx hlen
      rw [List.length_nil, Nat.add_zero] at hlen
      rw [List.drop_eq_nil_of_le (le_of_eq hlen.symm)]
      simp [assignQtys, pqValues]
  | cons p rest ih =>
      intro idx hlen
      have hidx : idx < qs.length := by
        rw [List.length_cons] at hlen
        omega
      have hq : 0 ≤ qs.getD idx 0 := hnn _ (getD_mem qs 0 idx hidx)
      rw [drop_eq_getD_cons qs idx hidx, List.sum_cons]
      unfold assignQtys
      dsimp only
      have hrec := ih (idx + 1) (by rw [List.length_cons] at hlen; omega)
      rw [List.length_cons]
      by_cases hkeep : qs.getD idx 0 > 1 / 100
      · rw [if_pos hkeep]
        unfold pqValues
        rw [List.map_append, List.sum_append]
        have herr := round2_err (qs.getD idx 0)
        unfold pqValues at hrec
        simp only [List.map_cons, List.map_nil, List.sum_cons, List.sum_nil]
        have habs := abs_add (round2 (qs.getD idx 0) - qs.getD idx 0)
          ((List.map (fun e : ℕ × ℚ => e.2) (assignQtys qs (idx + 1) rest)).sum -
            (qs.drop (idx + 1)).sum)
        push_cast
        calc |round2 (qs.getD idx 0) + 0 +
              (List.map (fun e : ℕ × ℚ => e.2) (assignQtys qs (idx + 1) rest)).sum -
              (qs.getD idx 0 + (qs.drop (idx + 1)).sum)|
            = |(round2 (qs.getD idx 0) - qs.getD idx 0) +
              ((List.map (fun e : ℕ × ℚ => e.2) (assignQtys qs (idx + 1) rest)).sum -
                (qs.drop (idx + 1)).sum)| := by ring_nf
        _ ≤ |round2 (qs.getD idx 0) - qs.getD idx 0| +
              |(List.map (fun e : ℕ × ℚ => e.2) (assignQtys qs (idx + 1) rest)).sum -
                (qs.drop (idx + 1)).sum| := habs
        _ ≤ 1 / 200 + (rest.length : ℚ) / 100 := add_le_add herr hrec
        _ ≤ ((rest.length : ℚ) + 1) / 100 := by ring_nf; linarith
      · rw [if_neg hkeep]
        unfold pqValues
        rw [List.nil_append]
        unfold pqValues at hrec
        push_cast
        have hle : qs.getD idx 0 ≤ 1 / 100 := le_of_not_lt hkeep
        have habs := abs_add
          ((List.map (fun e : ℕ × ℚ => e.2) (assignQtys qs (idx + 1) rest)).sum -
            (qs.drop (idx + 1)).sum) (-(qs.getD idx 0))
        calc |(List.map (fun e : ℕ × ℚ => e.2) (assignQtys qs (idx + 1) rest)).sum -
              (qs.getD idx 0 + (qs.drop (idx + 1)).sum)|
            = |((List.map (fun e : ℕ × ℚ => e.2) (assignQtys qs (idx + 1) rest)).sum -
              (qs.drop (idx + 1)).sum) + (-(qs.getD idx 0))| := by ring_nf
        _ ≤ |(List.map (fun e : ℕ × ℚ => e.2) (assignQtys qs (idx + 1) rest)).sum -
              (qs.drop (idx + 1)).sum| + |(-(qs.getD idx 0))| := habs
        _ ≤ (rest.length : ℚ) / 100 + 1 / 100 := by
              refine add_le_add hrec ?_
              rw [abs_neg, abs_of_nonneg hq]
              exact hle
        _ = ((rest.length : ℚ) + 1) / 100 := by ring

theorem shuffleItem_total (rand : ℕ → ℚ) (ppl : List Person) (k : ℕ) (it : Item)
    (hr : ∀ m, 0 ≤ rand m ∧ rand m < 1) (hnn : ∀ e ∈ it.personQuantities, 0 ≤ e.2)
    (hppl : ppl ≠ []) :
    (itemTotalQty it = 0 → (shuffleItem rand ppl k it).1 = it) ∧
    (itemTotalQty it ≠ 0 →
      |itemTotalQty (shuffleItem rand ppl k it).1 - itemTotalQty it| ≤
        (ppl.length : ℚ) / 100) := by
  constructor
  · intro h0
    unfold shuffleItem
    rw [if_pos h0]
  · intro hT
    have hTnn : 0 ≤ itemTotalQty it := by
      apply List.sum_nonneg
      intro x hx
      obtain ⟨e, he, hee⟩ := List.mem_map.mp hx
      rw [← hee]
      exact hnn e he
    unfold shuffleItem
    rw [if_neg hT]
    dsimp only
    have hgen_sum := genQtys_sum rand (ppl.length - 1) k (itemTotalQty it)
    have hgen_len := genQtys_length rand (ppl.length - 1) k (itemTotalQty it)
    have hgen_nn := genQtys_nonneg rand hr (ppl.length - 1) k (itemTotalQty it) hTnn
    have hfy := fyShuffle_props rand hr
      (genQtys rand k (ppl.length - 1) (itemTotalQty it)).2
      (genQtys rand k (ppl.length - 1) (itemTotalQty it)).1
    have hN : ppl.length - 1 + 1 = ppl.length := by
      cases ppl with
      | nil => exact absurd rfl hppl
      | cons p ps => simp
    have hq_len : (fyShuffle rand
        (genQtys rand k (ppl.length - 1) (itemTotalQty it)).2
        (genQtys rand k (ppl.length - 1) (itemTotalQty it)).1).1.length = ppl.length := by
      rw [hfy.1, hgen_len, hN]
    have hbound := assignQtys_sum_bound
      (fyShuffle rand (genQtys rand k (ppl.length - 1) (itemTotalQty it)).2
        (genQtys rand k (ppl.length - 1) (itemTotalQty it)).1).1
      (hfy.2.2 hgen_nn) ppl 0 (by rw [hq_len]; omega)
    rw [List.drop_zero, hfy.2.1, hgen_sum] at hbound
    exact hbound

theorem shuffleItems_getD (rand : ℕ → ℚ) (ppl : List Person) :
    ∀ (items : List Item) (k : ℕ),
    (shuffleItems rand ppl k items).1.length = items.length ∧
    ∀ i, i < items.length → ∃ k2,
      (shuffleItems rand ppl k items).1.getD i dummyItem =
        (shuffleItem rand ppl k2 (items.getD i dummyItem)).1 := by
  intro items
  induction items with
  | nil =>
      intro k
      exact ⟨rfl, fun i hi => absurd hi (by simp)⟩
  | cons x rest ih =>
      intro k
      unfold shuffleItems
      dsimp only
      constructor
      · rw [List.length_cons, List.length_cons, (ih _).1]
      · intro i hi
        match i with
        | 0 => exact ⟨k, rfl⟩
        | j + 1 =>
            simp only [List.getD_cons_succ]
            exact (ih _).2 j (by simpa using hi)

/-- C8: for every state with at least one person and one item and every
draw stream in `[0, 1)`, shuffling leaves every item whose total assigned
quantity is zero untouched, and for every other item the total after
shuffling differs from the total before by at most one cent per person
(values are rounded to 2 decimals, and values at or below 0.01 are
dropped).  Stored quantities are assumed nonnegative (the store's
invariant). -/
theorem C8_shuffle_preserves_totals (s : AppState) (rand : ℕ → ℚ)
    (hp : s.people ≠ []) (hitems : s.items ≠ [])
    (hr : ∀ m, 0 ≤ rand m ∧ rand m < 1)
    (hnn : ∀ it ∈ s.items, ∀ e ∈ it.personQuantities, 0 ≤ e.2) :
    (shuffleQuantities rand s).items.length = s.items.length ∧
    ∀ i, i < s.items.length →
      (itemTotalQty (s.items.getD i dummyItem) = 0 →
        (shuffleQuantities rand s).items.getD i dummyItem = s.items.getD i dummyItem) ∧
      (itemTotalQty (s.items.getD i dummyItem) ≠ 0 →
        |itemTotalQty ((shuffleQuantities rand s).items.getD i dummyItem) -
            itemTotalQty (s.items.getD i dummyItem)| ≤ (s.people.length : ℚ) / 100) := by
  have hcond : ¬ (s.people = [] ∨ s.items = []) := by
    rintro (h | h)
    · exact hp h
    · exact hitems h
  have hshuf : shuffleQuantities rand s =
      { s with items := (shuffleItems rand s.people 0 s.items).1 } := by
    unfold shuffleQuantities
    rw [if_neg hcond]
  rw [hshuf]
  have hprops := shuffleItems_getD rand s.people s.items 0
  refine ⟨hprops.1, ?_⟩
  intro i hi
  obtain ⟨k2, hk2⟩ := hprops.2 i hi
  show (itemTotalQty (s.items.getD i dummyItem) = 0 →
      (shuffleItems rand s.people 0 s.items).1.getD i dummyItem = s.items.getD i dummyItem) ∧ _
  rw [hk2]
  have hx := shuffleItem_total rand s.people k2 (s.items.getD i dummyItem) hr
    (hnn _ (getD_mem s.items dummyItem i hi)) hp
  exact hx

/-- Witness for C8 at `c8State`, with the constant-zero draw stream. -/
theorem C8_witness :
    (shuffleQuantities (fun _ => 0) c8State).items.length = c8State.items.length ∧
    ∀ i, i < c8State.items.length →
      (itemTotalQty (c8State.items.getD i dummyItem) = 0 →
        (shuffleQuantities (fun _ => 0) c8State).items.getD i dummyItem =
          c8State.items.getD i dummyItem) ∧
      (itemTotalQty (c8State.items.getD i dummyItem) ≠ 0 →
        |itemTotalQty ((shuffleQuantities (fun _ => 0) c8State).items.getD i dummyItem) -
            itemTotalQty (c8State.items.getD i dummyItem)| ≤
          (c8State.people.length : ℚ) / 100) :=
  C8_shuffle_preserves_totals c8State (fun _ => 0) (by decide) (by decide)
    (fun m => ⟨le_refl 0, by norm_num⟩) (by decide)

/-! ## C3: shareable-URL round trip -/

theorem splitOnChar_cons (c x : Char) (xs : List Char) :
    splitOnChar c (x :: xs) =
      if x = c then [] :: splitOnChar c xs
      else
        match splitOnChar c xs with
        | [] => [[x]]
        | f :: fs => (x :: f) :: fs := rfl

theorem splitOnChar_no_sep (c : Char) (x : List Char) (h : c ∉ x) :
    splitOnChar c x = [x] := by
  induction x with
  | nil => rfl
  | cons y ys ih =>
      rw [splitOnChar_cons]
      rw [if_neg (fun hyc => h (by rw [hyc]; exact List.mem_cons_self _ _))]
      rw [ih (fun hc => h (List.mem_cons_of_mem _ hc))]

theorem splitOnChar_append_sep (c : Char) (A B : List Char) (h : c ∉ A) :
    splitOnChar c (A ++ c :: B) = A :: splitOnChar c B := by
  induction A with
  | nil =>
      rw [List.nil_append, splitOnChar_cons, if_pos rfl]
  | cons a as ih =>
      rw [List.cons_append, splitOnChar_cons]
      rw [if_neg (fun hac => h (by rw [hac]; exact List.mem_cons_self _ _))]
      rw [ih (fun hc => h (List.mem_cons_of_mem _ hc))]

theorem splitOnChar_joinChar (c : Char) (xs : List (List Char)) (hne : xs ≠ [])
    (hnc : ∀ x ∈ xs, c ∉ x) : splitOnChar c (joinChar c xs) = xs := by
  induction xs with
  | nil => exact absurd rfl hne
  | cons x rest ih =>
      cases rest with
      | nil => exact splitOnChar_no_sep c x (hnc x (List.mem_cons_self _ _))
      | cons y ys =>
          have hjoin : joinChar c (x :: y :: ys) = x ++ c :: joinChar c (y :: ys) := rfl
          rw [hjoin, splitOnChar_append_sep c x _ (hnc x (List.mem_cons_self _ _))]
          rw [ih (by simp) (fun z hz => hnc z (List.mem_cons_of_mem _ hz))]

theorem mapIdxFrom_length {α β : Type} (f : ℕ → α → β) :
    ∀ (k : ℕ) (l : List α), (mapIdxFrom f k l).length = l.length := by
  intro k l
  induction l generalizing k with
  | nil => rfl
  | cons x xs ih =>
      unfold mapIdxFrom
      rw [List.length_cons, List.length_cons, ih]

theorem mapIdxFrom_getD {α β : Type} (f : ℕ → α → β) (d : β) (d0 : α) :
    ∀ (l : List α) (k j : ℕ), j < l.length →
    (mapIdxFrom f k l).getD j d = f (k + j) (l.getD j d0) := by
  intro l
  induction l with
  | nil =>
      intro k j hj
      simp at hj
  | cons x xs ih =>
      intro k j hj
      match j with
      | 0 => simp [mapIdxFrom]
      | j + 1 =>
          unfold mapIdxFrom
          simp only [List.getD_cons_succ]
          rw [ih (k + 1) j (by simpa using hj)]
          congr 1
          omega

theorem mapIdxFrom_map {α β γ : Type} (f : ℕ → α → β) (g : β → γ) :
    ∀ (k : ℕ) (l : List α),
    (mapIdxFrom f k l).map g = mapIdxFrom (fun i x => g (f i x)) k l := by
  intro k l
  induction l generalizing k with
  | nil => rfl
  | cons x xs ih =>
      unfold mapIdxFrom
      rw [List.map_cons, ih]

theorem mapIdxFrom_const {α β : Type} (g : α → β) :
    ∀ (k : ℕ) (l : List α), mapIdxFrom (fun _ x => g x) k l = l.map g := by
  intro k l
  induction l generalizing k with
  | nil => rfl
  | cons x xs ih =>
      unfold mapIdxFrom
      rw [List.map_cons, ih]

theorem getParam_cons (k : String) (e : String × List Char)
    (rest : List (String × List Char)) :
    getParam k (e :: rest) = if e.1 = k then some e.2 else getParam k rest := rfl

theorem getParam_append (k : String) (l1 l2 : List (String × List Char)) :
    getParam k (l1 ++ l2) =
      match getParam k l1 with
      | some v => some v
      | none => getParam k l2 := by
  induction l1 with
  | nil => rfl
  | cons e rest ih =>
      rw [List.cons_append, getParam_cons, getParam_cons]
      by_cases he : e.1 = k
      · simp only [if_pos he]
      · simp only [if_neg he]
        exact ih

theorem modifyIdx_length {α : Type} (f : α → α) :
    ∀ (i : ℕ) (l : List α), (modifyIdx i f l).length = l.length := by
  intro i l
  induction l generalizing i with
  | nil => simp only [modifyIdx]
  | cons x xs ih =>
      match i with
      | 0 => rfl
      | j + 1 =>
          show (x :: modifyIdx j f xs).length = (x :: xs).length
          rw [List.length_cons, List.length_cons, ih]

theorem modifyIdx_getD_ne {α : Type} (f : α → α) (d : α) :
    ∀ (i i' : ℕ) (l : List α), i' ≠ i →
    (modifyIdx i f l).getD i' d = l.getD i' d := by
  intro i i' l
  induction l generalizing i i' with
  | nil => intro _; simp only [modifyIdx]
  | cons x xs ih =>
      intro hne
      match i with
      | 0 =>
          match i' with
          | 0 => exact absurd rfl hne
          | k + 1 => rfl
      | j + 1 =>
          match i' with
          | 0 => rfl
          | k + 1 =>
              show (x :: modifyIdx j f xs).getD (k + 1) d = (x :: xs).getD (k + 1) d
              rw [List.getD_cons_succ, List.getD_cons_succ]
              exact ih j k (fun h => hne (by rw [h]))

theorem modifyIdx_getD_self {α : Type} (f : α → α) (d : α) :
    ∀ (i : ℕ) (l : List α), i < l.length →
    (modifyIdx i f l).getD i d = f (l.getD i d) := by
  intro i l
  induction l generalizing i with
  | nil => intro h; simp at h
  | cons x xs ih =>
      intro hi
      match i with
      | 0 => simp only [modifyIdx, List.getD_cons_zero]
      | j + 1 =>
          show (x :: modifyIdx j f xs).getD (j + 1) d = f ((x :: xs).getD (j + 1) d)
          rw [List.getD_cons_succ, List.getD_cons_succ]
          exact ih j (by simpa using hi)

theorem setPQ_fresh (m : List (ℕ × ℚ)) (k : ℕ) (v : ℚ) (h : ∀ e ∈ m, e.1 ≠ k) :
    setPQ m k v = m ++ [(k, v)] := by
  have hnone : pqLookup k m = none := by
    apply pqLookup_none_of_not_mem
    intro hmem
    obtain ⟨e, he, hfst⟩ := List.mem_map.mp hmem
    exact h e he hfst
  unfold setPQ
  rw [hnone]
  rfl

theorem pqLookup_append (k : ℕ) (a b : List (ℕ × ℚ)) :
    pqLookup k (a ++ b) =
      match pqLookup k a with
      | some v => some v
      | none => pqLookup k b := by
  induction a with
  | nil => rfl
  | cons e rest ih =>
      rw [List.cons_append, pqLookup_cons, pqLookup_cons]
      by_cases he : e.1 = k
      · simp only [if_pos he]
      · simp only [if_neg he]
        exact ih

theorem mapIdxFrom_mem {α β : Type} (f : ℕ → α → β) :
    ∀ (k : ℕ) (l : List α) (x : β), x ∈ mapIdxFrom f k l →
    ∃ m, ∃ a ∈ l, x = f m a := by
  intro k l
  induction l generalizing k with
  | nil => intro x hx; simp [mapIdxFrom] at hx
  | cons y ys ih =>
      intro x hx
      rcases List.mem_cons.mp hx with h | h
      · exact ⟨k, y, List.mem_cons_self _ _, h⟩
      · obtain ⟨m, a, ha, hxa⟩ := ih (k + 1) x h
        exact ⟨m, a, List.mem_cons_of_mem _ ha, hxa⟩

theorem flatten_nil_mem {α : Type} (L : List (List α)) (h : L.flatten = []) :
    ∀ x ∈ L, x = [] := by
  induction L with
  | nil => intro x hx; simp at hx
  | cons y ys ih =>
      rw [List.flatten_cons] at h
      obtain ⟨hy, hys⟩ := List.append_eq_nil.mp h
      intro x hx
      rcases List.mem_cons.mp hx with rfl | hx
      · exact hy
      · exact ih hys x hx

/-- Digit and decimal-point characters of `numToChars` for a nonnegative
cent value (no separator characters appear in a serialized number). -/
theorem numToChars_chars (q : ℚ) (hq : 0 ≤ q) (hc : IsCent q) :
    ∀ c ∈ numToChars q, isDigitChar c = true ∨ c = '.' := by
  intro c hcm
  obtain ⟨h1, _⟩ := numToChars_eq_decimalStr q hq hc
  rw [h1] at hcm
  exact decimalStr_chars _ c hcm

/-- Decoding one generated `itemIdx-personIdx:qty` triple stores the
quantity at the person index of the targeted item. -/
theorem decodeQtyStep_triple (nPeople : ℕ) (dec : List Item) (i j : ℕ) (q : ℚ)
    (hi : i < dec.length) (hj : j < nPeople) (hq0 : 0 ≤ q) (hqc : IsCent q) :
    decodeQtyStep nPeople dec (natToChars i ++ '-' :: natToChars j ++ ':' :: numToChars q) =
      modifyIdx i (fun it =>
        { it with personQuantities := setPQ it.personQuantities j q }) dec := by
  have hnc : ':' ∉ natToChars i ++ '-' :: natToChars j := by
    intro hmem
    rcases List.mem_append.mp hmem with h | h
    · exact absurd (natToChars_digits i _ h) (by decide)
    · rcases List.mem_cons.mp h with h | h
      · exact absurd h (by decide)
      · exact absurd (natToChars_digits j _ h) (by decide)
  have hnc2 : ':' ∉ numToChars q := by
    intro hmem
    rcases numToChars_chars q hq0 hqc _ hmem with h | h
    · exact absurd h (by decide)
    · exact absurd h (by decide)
  have hnd1 : '-' ∉ natToChars i := by
    intro hmem
    exact absurd (natToChars_digits i _ hmem) (by decide)
  have hnd2 : '-' ∉ natToChars j := by
    intro hmem
    exact absurd (natToChars_digits j _ hmem) (by decide)
  have hre : natToChars i ++ '-' :: natToChars j ++ ':' :: numToChars q =
      (natToChars i ++ '-' :: natToChars j) ++ ':' :: numToChars q := by
    simp
  unfold decodeQtyStep
  rw [hre, splitOnChar_append_sep _ _ _ hnc, splitOnChar_no_sep _ _ hnc2]
  simp only [List.headD_cons, List.drop_succ_cons, List.drop_zero]
  rw [splitOnChar_append_sep _ _ _ hnd1, splitOnChar_no_sep _ _ hnd2]
  simp only [List.headD_cons, List.drop_succ_cons, List.drop_zero]
  rw [jsNumberNat_natToChars, jsNumberNat_natToChars]
  dsimp only
  rw [if_pos ⟨hi, hj⟩, parseFloatQ_numToChars q hq0 hqc]

theorem qtyPairs_cons (m : List (ℕ × ℚ)) (j0 : ℕ) (p : Person) (rest : List Person) :
    qtyPairs m j0 (p :: rest) =
      (match pqLookup p.id m with
       | some q => if q ≠ 0 then [(j0, q)] else []
       | none => []) ++ qtyPairs m (j0 + 1) rest := rfl

theorem qtyTriples_cons (i : ℕ) (m : List (ℕ × ℚ)) (j0 : ℕ) (p : Person)
    (rest : List Person) :
    qtyTriples i m j0 (p :: rest) =
      (match pqLookup p.id m with
       | some qty => if qty ≠ 0
           then [natToChars i ++ '-' :: natToChars j0 ++ ':' :: numToChars qty]
           else []
       | none => []) ++ qtyTriples i m (j0 + 1) rest := rfl

theorem qtyPairs_keys (m : List (ℕ × ℚ)) :
    ∀ (ppl : List Person) (j0 : ℕ), ∀ e ∈ qtyPairs m j0 ppl, j0 ≤ e.1 := by
  intro ppl
  induction ppl with
  | nil => intro j0 e he; simp [qtyPairs, mapIdxFrom] at he
  | cons p rest ih =>
      intro j0 e he
      rw [qtyPairs_cons] at he
      rcases List.mem_append.mp he with h | h
      · rcases hlk : pqLookup p.id m with _ | q
        · rw [hlk] at h; simp at h
        · rw [hlk] at h
          dsimp only at h
          by_cases hq : q ≠ 0
          · rw [if_pos hq] at h
            simp [List.mem_singleton.mp h]
          · rw [if_neg hq] at h; simp at h
      · have := ih (j0 + 1) e h
        omega

theorem qtyPairs_lookup (m : List (ℕ × ℚ)) (hpos : ∀ e ∈ m, 0 < e.2) :
    ∀ (ppl : List Person) (j0 jr : ℕ), jr < ppl.length →
    pqLookup (j0 + jr) (qtyPairs m j0 ppl) =
      pqLookup ((ppl.getD jr dummyPerson).id) m := by
  intro ppl
  induction ppl with
  | nil => intro j0 jr h; simp at h
  | cons p rest ih =>
      intro j0 jr hjr
      rw [qtyPairs_cons, pqLookup_append]
      match jr with
      | 0 =>
          rw [Nat.add_zero, List.getD_cons_zero]
          rcases hlk : pqLookup p.id m with _ | q
          · dsimp only
            apply pqLookup_none_of_not_mem
            intro hmem
            obtain ⟨e, he, hfst⟩ := List.mem_map.mp hmem
            have := qtyPairs_keys m rest (j0 + 1) e he
            omega
          · have hq : q ≠ 0 := ne_of_gt (hpos _ (pqLookup_mem _ _ _ hlk))
            dsimp only
            rw [if_pos hq, pqLookup_cons, if_pos rfl]
      | jr + 1 =>
          rw [List.getD_cons_succ]
          have hblock : pqLookup (j0 + (jr + 1))
              (match pqLookup p.id m with
               | some q => if q ≠ 0 then [(j0, q)] else []
               | none => []) = none := by
            rcases hlk : pqLookup p.id m with _ | q
            · rfl
            · dsimp only
              by_cases hq : q ≠ 0
              · rw [if_pos hq, pqLookup_cons, if_neg (by omega)]
                rfl
              · rw [if_neg hq]
                rfl
          rw [hblock]
          have harith : j0 + (jr + 1) = (j0 + 1) + jr := by omega
          rw [harith, ih (j0 + 1) jr (by simpa using hjr)]

/-- Folding the decoder over the triples generated for one item updates
that item's quantity map by appending the generated pairs and leaves every
other position untouched. -/
theorem qtyTriples_fold (nPeople i : ℕ) (m : List (ℕ × ℚ))
    (hm : ∀ e ∈ m, 0 < e.2 ∧ IsCent e.2) :
    ∀ (ppl : List Person) (j0 : ℕ) (dec : List Item),
    i < dec.length → j0 + ppl.length ≤ nPeople →
    (∀ e ∈ (dec.getD i dummyItem).personQuantities, e.1 < j0) →
    ((qtyTriples i m j0 ppl).foldl (decodeQtyStep nPeople) dec).length = dec.length ∧
    (∀ i', i' ≠ i →
      ((qtyTriples i m j0 ppl).foldl (decodeQtyStep nPeople) dec).getD i' dummyItem =
        dec.getD i' dummyItem) ∧
    ((qtyTriples i m j0 ppl).foldl (decodeQtyStep nPeople) dec).getD i dummyItem =
      { dec.getD i dummyItem with personQuantities :=
          (dec.getD i dummyItem).personQuantities ++ qtyPairs m j0 ppl } := by
  intro ppl
  induction ppl with
  | nil =>
      intro j0 dec _ _ _
      refine ⟨rfl, fun _ _ => rfl, ?_⟩
      show dec.getD i dummyItem =
        { dec.getD i dummyItem with personQuantities :=
            (dec.getD i dummyItem).personQuantities ++ [] }
      rw [List.append_nil]
  | cons p rest ih =>
      intro j0 dec hi hnp hkeys
      rw [qtyTriples_cons, qtyPairs_cons, List.foldl_append]
      rcases hlk : pqLookup p.id m with _ | q
      · dsimp only
        rw [List.foldl_nil]
        have ihr := ih (j0 + 1) dec hi (by simp at hnp ⊢; omega)
          (fun e he => by have := hkeys e he; omega)
        refine ⟨ihr.1, ihr.2.1, ?_⟩
        rw [ihr.2.2, List.nil_append]
      · obtain ⟨hqpos, hqc⟩ := hm _ (pqLookup_mem _ _ _ hlk)
        have hq : q ≠ 0 := ne_of_gt hqpos
        dsimp only
        rw [if_pos hq, if_pos hq, List.foldl_cons, List.foldl_nil]
        rw [decodeQtyStep_triple nPeople dec i j0 q hi (by simp at hnp; omega)
          (le_of_lt hqpos) hqc]
        have hfresh : ∀ e ∈ (dec.getD i dummyItem).personQuantities, e.1 ≠ j0 :=
          fun e he => by have := hkeys e he; omega
        have hset : (modifyIdx i (fun it =>
            { it with personQuantities := setPQ it.personQuantities j0 q }) dec).getD i
              dummyItem =
            { dec.getD i dummyItem with personQuantities :=
                (dec.getD i dummyItem).personQuantities ++ [(j0, q)] } := by
          rw [modifyIdx_getD_self _ _ _ _ hi]
          rw [setPQ_fresh _ _ _ hfresh]
        have ihr := ih (j0 + 1)
          (modifyIdx i (fun it =>
            { it with personQuantities := setPQ it.personQuantities j0 q }) dec)
          (by rw [modifyIdx_length]; exact hi)
          (by simp at hnp ⊢; omega)
          (by
            rw [hset]
            intro e he
            rcases List.mem_append.mp he with h | h
            · have := hkeys e h; omega
            · rw [List.mem_singleton.mp h]; omega)
        refine ⟨?_, ?_, ?_⟩
        · rw [ihr.1, modifyIdx_length]
        · intro i' hne
          rw [ihr.2.1 i' hne, modifyIdx_getD_ne _ _ _ _ _ hne]
        · rw [ihr.2.2, hset]
          dsimp only
          rw [List.append_assoc, List.singleton_append]

/-- Folding the decoder over the whole generated quantity payload fills
each item position with exactly the pairs generated from the original
item's quantity map. -/
theorem encItems_fold (ppl : List Person) :
    ∀ (origItems : List Item) (i0 : ℕ) (dec : List Item),
    (∀ it ∈ origItems, ∀ e ∈ it.personQuantities, 0 < e.2 ∧ IsCent e.2) →
    i0 + origItems.length ≤ dec.length →
    (∀ k, k < origItems.length → (dec.getD (i0 + k) dummyItem).personQuantities = []) →
    (((mapIdxFrom (fun i x => qtyTriples i x.personQuantities 0 ppl) i0 origItems).flatten).foldl
        (decodeQtyStep ppl.length) dec).length = dec.length ∧
    (∀ i', i' < i0 →
      (((mapIdxFrom (fun i x => qtyTriples i x.personQuantities 0 ppl) i0 origItems).flatten).foldl
          (decodeQtyStep ppl.length) dec).getD i' dummyItem = dec.getD i' dummyItem) ∧
    (∀ k, k < origItems.length →
      (((mapIdxFrom (fun i x => qtyTriples i x.personQuantities 0 ppl) i0 origItems).flatten).foldl
          (decodeQtyStep ppl.length) dec).getD (i0 + k) dummyItem =
        { dec.getD (i0 + k) dummyItem with personQuantities :=
            (qtyPairs (origItems.getD k dummyItem).personQuantities 0 ppl) }) := by
  intro origItems
  induction origItems with
  | nil =>
      intro i0 dec _ _ _
      exact ⟨rfl, fun _ _ => rfl, fun k hk => absurd hk (by simp)⟩
  | cons it rest ih =>
      intro i0 dec hq hlen hinit
      have hcons : (mapIdxFrom (fun i x => qtyTriples i x.personQuantities 0 ppl) i0
          (it :: rest)).flatten =
          qtyTriples i0 it.personQuantities 0 ppl ++
            (mapIdxFrom (fun i x => qtyTriples i x.personQuantities 0 ppl) (i0 + 1)
              rest).flatten := rfl
      rw [hcons, List.foldl_append]
      have hi0 : i0 < dec.length := by simp at hlen; omega
      have hd0 : (dec.getD i0 dummyItem).personQuantities = [] := by
        have := hinit 0 (by simp)
        rwa [Nat.add_zero] at this
      have hblock := qtyTriples_fold ppl.length i0 it.personQuantities
        (hq it (List.mem_cons_self _ _)) ppl 0 dec hi0 (by omega)
        (by rw [hd0]; intro e he; simp at he)
      have ihr := ih (i0 + 1)
        ((qtyTriples i0 it.personQuantities 0 ppl).foldl (decodeQtyStep ppl.length) dec)
        (fun x hx => hq x (List.mem_cons_of_mem _ hx))
        (by rw [hblock.1]; simp at hlen; omega)
        (by
          intro k hk
          have hne : i0 + 1 + k ≠ i0 := by omega
          rw [hblock.2.1 _ hne]
          have := hinit (k + 1) (by simp; omega)
          rwa [show i0 + (k + 1) = i0 + 1 + k from by omega] at this)
      refine ⟨?_, ?_, ?_⟩
      · rw [ihr.1, hblock.1]
      · intro i' hi'
        rw [ihr.2.1 i' (by omega), hblock.2.1 i' (by omega)]
      · intro k hk
        match k with
        | 0 =>
            simp only [Nat.add_zero, List.getD_cons_zero]
            rw [ihr.2.1 i0 (by omega), hblock.2.2, hd0, List.nil_append]
        | k + 1 =>
            have harith : i0 + (k + 1) = i0 + 1 + k := by omega
            rw [harith, ihr.2.2 k (by simp at hk; omega), hblock.2.1 _ (by omega),
              List.getD_cons_succ]

theorem mapIdxFrom_cons {α β : Type} (f : ℕ → α → β) (k : ℕ) (x : α) (xs : List α) :
    mapIdxFrom f k (x :: xs) = f k x :: mapIdxFrom f (k + 1) xs := rfl

theorem getParam_if_ne₁ (k key : String) (v : List Char) (c : Prop) [Decidable c]
    (h : key ≠ k) : getParam k (if c then [] else [(key, v)]) = none := by
  split
  · rfl
  · rw [getParam_cons, if_neg h]
    rfl

theorem getParam_if_ne₂ (k key : String) (v : List Char) (c : Prop) [Decidable c]
    (h : key ≠ k) : getParam k (if c then [(key, v)] else []) = none := by
  split
  · rw [getParam_cons, if_neg h]
    rfl
  · rfl

theorem getParam_if_eq₁ (k : String) (v : List Char) (c : Prop) [Decidable c] :
    getParam k (if c then [] else [(k, v)]) = if c then none else some v := by
  split
  · rfl
  · rw [getParam_cons, if_pos rfl]

theorem getParam_if_eq₂ (k : String) (v : List Char) (c : Prop) [Decidable c] :
    getParam k (if c then [(k, v)] else []) = if c then some v else none := by
  split
  · rw [getParam_cons, if_pos rfl]
  · rfl

/-- The encoder's parameter list, with the quantity payload abbreviated. -/
theorem generateShareableParams_eq (s : AppState) :
    generateShareableParams s =
      (if s.people = [] then []
       else [("p", joinChar ',' (s.people.map (fun p => p.name.data)))]) ++
      ((if s.items = [] then []
       else [("i", joinChar ';'
          (s.items.map (fun it => it.name.data ++ ':' :: numToChars it.price)))]) ++
      ((if encQuantities s = [] then []
       else [("q", joinChar ';' (encQuantities s))]) ++
      ((if s.tax ≠ 0 then [("tax", numToChars s.tax)] else []) ++
      (if s.tip ≠ 0 then [("tip", numToChars s.tip)] else [])))) := by
  simp only [generateShareableParams, List.append_assoc]

theorem getParam_data_enc (s : AppState) :
    getParam "data" (generateShareableParams s) = none := by
  rw [generateShareableParams_eq, getParam_append,
      getParam_if_ne₁ _ _ _ _ (by decide)]
  dsimp only
  rw [getParam_append, getParam_if_ne₁ _ _ _ _ (by decide)]
  dsimp only
  rw [getParam_append, getParam_if_ne₁ _ _ _ _ (by decide)]
  dsimp only
  rw [getParam_append, getParam_if_ne₂ _ _ _ _ (by decide)]
  dsimp only
  rw [getParam_if_ne₂ _ _ _ _ (by decide)]

theorem getParam_p_enc (s : AppState) (h : s.people ≠ []) :
    getParam "p" (generateShareableParams s) =
      some (joinChar ',' (s.people.map (fun p => p.name.data))) := by
  rw [generateShareableParams_eq, getParam_append, getParam_if_eq₁, if_neg h]

theorem getParam_i_enc (s : AppState) :
    getParam "i" (generateShareableParams s) =
      if s.items = [] then none
      else some (joinChar ';'
        (s.items.map (fun it => it.name.data ++ ':' :: numToChars it.price))) := by
  rw [generateShareableParams_eq, getParam_append,
      getParam_if_ne₁ _ _ _ _ (by decide)]
  dsimp only
  rw [getParam_append, getParam_if_eq₁]
  by_cases hit : s.items = []
  · rw [if_pos hit]
    dsimp only
    rw [getParam_append, getParam_if_ne₁ _ _ _ _ (by decide)]
    dsimp only
    rw [getParam_append, getParam_if_ne₂ _ _ _ _ (by decide)]
    dsimp only
    rw [getParam_if_ne₂ _ _ _ _ (by decide)]
  · rw [if_neg hit]

theorem getParam_q_enc (s : AppState) :
    getParam "q" (generateShareableParams s) =
      if encQuantities s = [] then none
      else some (joinChar ';' (encQuantities s)) := by
  rw [generateShareableParams_eq, getParam_append,
      getParam_if_ne₁ _ _ _ _ (by decide)]
  dsimp only
  rw [getParam_append, getParam_if_ne₁ _ _ _ _ (by decide)]
  dsimp only
  rw [getParam_append, getParam_if_eq₁]
  by_cases hqe : encQuantities s = []
  · rw [if_pos hqe]
    dsimp only
    rw [getParam_append, getParam_if_ne₂ _ _ _ _ (by decide)]
    dsimp only
    rw [getParam_if_ne₂ _ _ _ _ (by decide)]
  · rw [if_neg hqe]

theorem getParam_tax_enc (s : AppState) :
    getParam "tax" (generateShareableParams s) =
      if s.tax ≠ 0 then some (numToChars s.tax) else none := by
  rw [generateShareableParams_eq, getParam_append,
      getParam_if_ne₁ _ _ _ _ (by decide)]
  dsimp only
  rw [getParam_append, getParam_if_ne₁ _ _ _ _ (by decide)]
  dsimp only
  rw [getParam_append, getParam_if_ne₁ _ _ _ _ (by decide)]
  dsimp only
  rw [getParam_append, getParam_if_eq₂]
  by_cases htx : s.tax ≠ 0
  · rw [if_pos htx]
  · rw [if_neg htx]
    dsimp only
    rw [getParam_if_ne₂ _ _ _ _ (by decide)]

theorem getParam_tip_enc (s : AppState) (h : s.tip ≠ 0) :
    getParam "tip" (generateShareableParams s) = some (numToChars s.tip) := by
  rw [generateShareableParams_eq, getParam_append,
      getParam_if_ne₁ _ _ _ _ (by decide)]
  dsimp only
  rw [getParam_append, getParam_if_ne₁ _ _ _ _ (by decide)]
  dsimp only
  rw [getParam_append, getParam_if_ne₁ _ _ _ _ (by decide)]
  dsimp only
  rw [getParam_append, getParam_if_ne₂ _ _ _ _ (by decide)]
  dsimp only
  rw [getParam_if_eq₂, if_pos h]

theorem qtyTriples_nil (i : ℕ) (m : List (ℕ × ℚ)) (hpos : ∀ e ∈ m, 0 < e.2) :
    ∀ (ppl : List Person) (j0 : ℕ), qtyTriples i m j0 ppl = [] →
    ∀ j, j < ppl.length → pqLookup ((ppl.getD j dummyPerson).id) m = none := by
  intro ppl
  induction ppl with
  | nil => intro j0 _ j hj; simp at hj
  | cons p rest ih =>
      intro j0 h j hj
      rw [qtyTriples_cons] at h
      obtain ⟨h1, h2⟩ := List.append_eq_nil.mp h
      match j with
      | 0 =>
          rw [List.getD_cons_zero]
          rcases hlk : pqLookup p.id m with _ | q
          · rfl
          · exfalso
            rw [hlk] at h1
            dsimp only at h1
            have hq0 : 0 < q := hpos _ (pqLookup_mem _ _ _ hlk)
            rw [if_pos (ne_of_gt hq0)] at h1
            simp at h1
      | j + 1 =>
          rw [List.getD_cons_succ]
          exact ih (j0 + 1) h2 j (by simpa using hj)

theorem encQuantities_nil (s : AppState)
    (hpos : ∀ it ∈ s.items, ∀ e ∈ it.personQuantities, 0 < e.2)
    (h : encQuantities s = []) :
    ∀ k, k < s.items.length → ∀ j, j < s.people.length →
      pqLookup ((s.people.getD j dummyPerson).id)
        ((s.items.getD k dummyItem).personQuantities) = none := by
  intro k hk j hj
  have hklen : k < (mapIdxFrom
      (fun i x => qtyTriples i x.personQuantities 0 s.people) 0 s.items).length := by
    rw [mapIdxFrom_length]; exact hk
  have hout := flatten_nil_mem _ h _ (getD_mem _ [] k hklen)
  rw [mapIdxFrom_getD (fun i x => qtyTriples i x.personQuantities 0 s.people)
    [] dummyItem s.items 0 k hk] at hout
  exact qtyTriples_nil _ _ (hpos _ (getD_mem s.items dummyItem k hk)) s.people 0 hout j hj

theorem qtyTriples_chars (i : ℕ) (m : List (ℕ × ℚ))
    (hm : ∀ e ∈ m, 0 < e.2 ∧ IsCent e.2) (ppl : List Person) (j0 : ℕ) :
    ∀ t ∈ qtyTriples i m j0 ppl, ';' ∉ t := by
  intro t ht hsemi
  unfold qtyTriples at ht
  obtain ⟨L, hL, htL⟩ := List.mem_flatten.mp ht
  obtain ⟨j, p, _, hLq⟩ := mapIdxFrom_mem _ _ _ _ hL
  rw [hLq] at htL
  rcases hlk : pqLookup p.id m with _ | q
  · rw [hlk] at htL; simp at htL
  · rw [hlk] at htL
    dsimp only at htL
    obtain ⟨hq0, hqc⟩ := hm _ (pqLookup_mem _ _ _ hlk)
    rw [if_pos (ne_of_gt hq0)] at htL
    rw [List.mem_singleton.mp htL] at hsemi
    rcases List.mem_append.mp hsemi with hc | hc
    · rcases List.mem_append.mp hc with hc | hc
      · exact absurd (natToChars_digits _ _ hc) (by decide)
      · rcases List.mem_cons.mp hc with hc | hc
        · exact absurd hc (by decide)
        · exact absurd (natToChars_digits _ _ hc) (by decide)
    · rcases List.mem_cons.mp hc with hc | hc
      · exact absurd hc (by decide)
      · rcases numToChars_chars q (le_of_lt hq0) hqc _ hc with hc | hc
        · exact absurd hc (by decide)
        · exact absurd hc (by decide)

theorem encQuantities_chars (s : AppState)
    (hq : ∀ it ∈ s.items, ∀ e ∈ it.personQuantities, 0 < e.2 ∧ IsCent e.2) :
    ∀ t ∈ encQuantities s, ';' ∉ t := by
  intro t ht
  unfold encQuantities at ht
  obtain ⟨L, hL, htL⟩ := List.mem_flatten.mp ht
  obtain ⟨i, it, hit, hLq⟩ := mapIdxFrom_mem _ _ _ _ hL
  rw [hLq] at htL
  exact qtyTriples_chars i it.personQuantities (hq it hit) s.people 0 t htL

/-- Decoding the joined people names reproduces the original names when
they are trim-stable. -/
theorem decode_people_map (ps : List Person)
    (h : ∀ p ∈ ps, jsTrim p.name = p.name) :
    ∀ k, (mapIdxFrom (fun idx nameCs =>
        ({ id := idx, name := jsTrim (String.mk nameCs) } : Person)) k
        (ps.map (fun p => p.name.data))).map Person.name = ps.map Person.name := by
  induction ps with
  | nil => intro k; rfl
  | cons p rest ih =>
      intro k
      simp only [List.map_cons, mapIdxFrom_cons]
      rw [ih (fun x hx => h x (List.mem_cons_of_mem _ hx)) (k + 1)]
      congr 1
      show jsTrim (String.mk p.name.data) = p.name
      exact h p (List.mem_cons_self _ _)

theorem getD_map_gen {α β : Type} (f : α → β) (d : β) (d0 : α) :
    ∀ (l : List α) (k : ℕ), k < l.length → (l.map f).getD k d = f (l.getD k d0) := by
  intro l
  induction l with
  | nil => intro k hk; simp at hk
  | cons x xs ih =>
      intro k hk
      match k with
      | 0 => rfl
      | k + 1 =>
          rw [List.map_cons, List.getD_cons_succ, List.getD_cons_succ]
          exact ih k (by simpa using hk)

/-- Decoding the joined `name:price` item strings reproduces the original
names and prices at every position. -/
theorem decode_items_getD (its : List Item)
    (htrim : ∀ it ∈ its, jsTrim it.name = it.name)
    (hn : ∀ it ∈ its, ':' ∉ it.name.data)
    (hp : ∀ it ∈ its, 0 ≤ it.price ∧ IsCent it.price) :
    ∀ (k0 k : ℕ), k < its.length →
    (mapIdxFrom (fun idx itemStr =>
      let parts := splitOnChar ':' itemStr
      ({ id := idx,
         name := jsTrim (String.mk (parts.headD [])),
         price := ((parts.drop 1).headD [] |> parseFloatQ).getD 0,
         personQuantities := [] } : Item)) k0
      (its.map (fun it => it.name.data ++ ':' :: numToChars it.price))).getD k dummyItem =
      { id := k0 + k,
        name := (its.getD k dummyItem).name,
        price := (its.getD k dummyItem).price,
        personQuantities := [] } := by
  intro k0 k hk
  have hmem := getD_mem its dummyItem k hk
  obtain ⟨hp1, hp2⟩ := hp _ hmem
  have hnc2 : ':' ∉ numToChars (its.getD k dummyItem).price := by
    intro hmemc
    rcases numToChars_chars _ hp1 hp2 _ hmemc with h | h
    · exact absurd h (by decide)
    · exact absurd h (by decide)
  rw [mapIdxFrom_getD _ dummyItem [] _ k0 k (by rw [List.length_map]; exact hk)]
  rw [getD_map_gen _ [] dummyItem its k hk]
  dsimp only
  rw [splitOnChar_append_sep _ _ _ (hn _ hmem), splitOnChar_no_sep _ _ hnc2]
  simp only [List.headD_cons, List.drop_succ_cons, List.drop_zero]
  rw [parseFloatQ_numToChars _ hp1 hp2]
  rw [show jsTrim (String.mk (its.getD k dummyItem).name.data) =
    (its.getD k dummyItem).name from htrim _ hmem]
  rfl

theorem map_eq_of_getD {α β : Type} (f : α → β) (d : α) (l1 l2 : List α)
    (hlen : l1.length = l2.length)
    (hpt : ∀ k, k < l2.length → f (l1.getD k d) = f (l2.getD k d)) :
    l1.map f = l2.map f := by
  apply List.ext_getElem (by rw [List.length_map, List.length_map, hlen])
  intro i h1 h2
  rw [List.getElem_map, List.getElem_map]
  have hi2 : i < l2.length := by simpa using h2
  have hi1 : i < l1.length := by rw [hlen]; exact hi2
  rw [← List.getD_eq_getElem l1 d hi1, ← List.getD_eq_getElem l2 d hi2]
  exact hpt i hi2

/-- Decoding the encoder's parameter list takes the main branch and yields
exactly the positionally re-indexed people and items. -/
theorem loadStateFromURL_enc (s : AppState)
    (hppl : s.people ≠ [])
    (hpnames : ∀ p ∈ s.people, ',' ∉ p.name.data)
    (hinames : ∀ it ∈ s.items, ':' ∉ it.name.data ∧ ';' ∉ it.name.data)
    (hprices : ∀ it ∈ s.items, 0 ≤ it.price ∧ IsCent it.price)
    (hqtys : ∀ it ∈ s.items, ∀ e ∈ it.personQuantities, 0 < e.2 ∧ IsCent e.2)
    (htax0 : 0 ≤ s.tax) (htaxc : IsCent s.tax)
    (htip0 : 0 < s.tip) (htipc : IsCent s.tip) :
    loadStateFromURL (generateShareableParams s) =
      some { people := decodedPeople s, items := decodedItems s,
             nextPersonId := (decodedPeople s).length,
             nextItemId := (decodedItems s).length,
             tax := s.tax, tip := s.tip } := by
  have hdata := getParam_data_enc s
  have hpP := getParam_p_enc s hppl
  have hiP := getParam_i_enc s
  have hqP := getParam_q_enc s
  have htaxP := getParam_tax_enc s
  have htipP := getParam_tip_enc s (ne_of_gt htip0)
  have htaxval : ((getParam "tax" (generateShareableParams s)).bind parseFloatQ).getD 0 =
      s.tax := by
    rw [htaxP]
    by_cases htx : s.tax ≠ 0
    · rw [if_pos htx]
      show (parseFloatQ (numToChars s.tax)).getD 0 = s.tax
      rw [parseFloatQ_numToChars _ htax0 htaxc]
      rfl
    · rw [if_neg htx]
      show (0 : ℚ) = s.tax
      exact (not_ne_iff.mp htx).symm
  have htipval : ((getParam "tip" (generateShareableParams s)).bind parseFloatQ).getD 0 =
      s.tip := by
    rw [htipP]
    show (parseFloatQ (numToChars s.tip)).getD 0 = s.tip
    rw [parseFloatQ_numToChars _ (le_of_lt htip0) htipc]
    rfl
  have hpsplit : splitOnChar ',' (joinChar ',' (s.people.map (fun p => p.name.data))) =
      s.people.map (fun p => p.name.data) := by
    apply splitOnChar_joinChar _ _ (fun h => hppl (List.map_eq_nil_iff.mp h))
    intro x hx
    obtain ⟨p, hp, rfl⟩ := List.mem_map.mp hx
    exact hpnames p hp
  unfold loadStateFromURL
  rw [hdata]
  rw [if_neg (show ¬((none : Option (List Char)).isSome = true) from by decide)]
  dsimp only
  rw [hpP]
  rw [if_neg (fun hco => Option.some_ne_none _ hco.1)]
  dsimp only
  rw [hpsplit, htaxval, htipval, if_neg (ne_of_gt htip0)]
  by_cases hits : s.items = []
  · have hqe : encQuantities s = [] := by
      unfold encQuantities
      rw [hits]
      rfl
    have hdi : decodedItems s = [] := by
      unfold decodedItems
      rw [if_pos hits]
    rw [hiP, if_pos hits, hqP, if_pos hqe, hdi]
    rfl
  · have hisplit : splitOnChar ';' (joinChar ';'
        (s.items.map (fun it => it.name.data ++ ':' :: numToChars it.price))) =
        s.items.map (fun it => it.name.data ++ ':' :: numToChars it.price) := by
      apply splitOnChar_joinChar _ _ (fun h => hits (List.map_eq_nil_iff.mp h))
      intro x hx
      obtain ⟨it, hit, rfl⟩ := List.mem_map.mp hx
      intro hmem
      rcases List.mem_append.mp hmem with hc | hc
      · exact (hinames it hit).2 hc
      · rcases List.mem_cons.mp hc with hc | hc
        · exact absurd hc (by decide)
        · obtain ⟨hp1, hp2⟩ := hprices it hit
          rcases numToChars_chars _ hp1 hp2 _ hc with hc | hc
          · exact absurd hc (by decide)
          · exact absurd hc (by decide)
    rw [hiP, if_neg hits]
    dsimp only
    rw [hisplit]
    by_cases hqe : encQuantities s = []
    · have hdi : decodedItems s = decodedItems0 s := by
        unfold decodedItems
        rw [if_neg hits, if_pos hqe]
      rw [hqP, if_pos hqe, hdi]
      rfl
    · have hdi : decodedItems s = (encQuantities s).foldl
          (decodeQtyStep (decodedPeople s).length) (decodedItems0 s) := by
        unfold decodedItems
        rw [if_neg hits, if_neg hqe]
      have hilen0 : (decodedItems0 s).length = s.items.length := by
        unfold decodedItems0
        rw [mapIdxFrom_length, List.length_map]
      have hitems0ne : decodedItems0 s ≠ [] := by
        intro h
        rw [h] at hilen0
        exact hits (List.length_eq_zero.mp hilen0.symm)
      have hplen : (decodedPeople s).length = s.people.length := by
        unfold decodedPeople
        rw [mapIdxFrom_length, List.length_map]
      have hpne : decodedPeople s ≠ [] := by
        intro h
        rw [h] at hplen
        exact hppl (List.length_eq_zero.mp hplen.symm)
      have hqsplit : splitOnChar ';' (joinChar ';' (encQuantities s)) = encQuantities s :=
        splitOnChar_joinChar _ _ hqe (encQuantities_chars s hqtys)
      rw [hqP, if_neg hqe]
      dsimp only
      rw [hqsplit, if_pos ⟨hitems0ne, hpne⟩, hdi]
      rfl

/-- C3, counterexample: the URL round trip does not preserve a zero tip.
`generateShareableURL` omits falsy tax/tip parameters (src/script.js
lines 813-814) and `loadStateFromURL` replaces a missing or zero tip by
the default 10 (line 875, `parseFloat(...) || 10`), so encoding a state
with tip 0 and decoding it yields tip 10. -/
theorem C3_counterexample :
    c3CexState.tip = 0 ∧
    loadStateFromURL (generateShareableParams c3CexState) =
      some { people := [⟨0, "A"⟩], items := [], nextPersonId := 1, nextItemId := 0,
             tax := 0, tip := 10 } ∧
    (10 : ℚ) ≠ c3CexState.tip := by
  refine ⟨rfl, ?_, by decide⟩
  decide

/-- C3 (amended): for every state with at least one person whose names are
trim-stable and free of the URL separator characters, with nonnegative
cent-valued prices and tax, positive cent-valued stored quantities, and a
positive cent-valued tip (a zero tip is NOT round-tripped: the decoder
replaces it by the default 10, see the counterexample), decoding the
shareable URL encoding reproduces the same people (by name and order),
the same items (by name, price and order), the same quantity assignments,
and the same tax and tip percentages. -/
theorem C3_url_roundtrip (s : AppState)
    (hppl : s.people ≠ [])
    (hpnames : ∀ p ∈ s.people, jsTrim p.name = p.name ∧ ',' ∉ p.name.data)
    (hinames : ∀ it ∈ s.items,
      jsTrim it.name = it.name ∧ ':' ∉ it.name.data ∧ ';' ∉ it.name.data)
    (hprices : ∀ it ∈ s.items, 0 ≤ it.price ∧ IsCent it.price)
    (hqtys : ∀ it ∈ s.items, ∀ e ∈ it.personQuantities, 0 < e.2 ∧ IsCent e.2)
    (htax : 0 ≤ s.tax ∧ IsCent s.tax)
    (htip : 0 < s.tip ∧ IsCent s.tip) :
    ∃ u, loadStateFromURL (generateShareableParams s) = some u ∧
      u.people.map Person.name = s.people.map Person.name ∧
      u.items.map (fun it => (it.name, it.price)) =
        s.items.map (fun it => (it.name, it.price)) ∧
      u.tax = s.tax ∧ u.tip = s.tip ∧
      u.people.length = s.people.length ∧
      u.items.length = s.items.length ∧
      (∀ k, k < s.items.length → ∀ j, j < s.people.length →
        pqLookup j (u.items.getD k dummyItem).personQuantities =
          pqLookup ((s.people.getD j dummyPerson).id)
            ((s.items.getD k dummyItem).personQuantities)) := by
  obtain ⟨htax0, htaxc⟩ := htax
  obtain ⟨htip0, htipc⟩ := htip
  have hload := loadStateFromURL_enc s hppl (fun p hp => (hpnames p hp).2)
    (fun it hit => ⟨(hinames it hit).2.1, (hinames it hit).2.2⟩)
    hprices hqtys htax0 htaxc htip0 htipc
  have hpmap : (decodedPeople s).map Person.name = s.people.map Person.name :=
    decode_people_map s.people (fun p hp => (hpnames p hp).1) 0
  have hplen : (decodedPeople s).length = s.people.length := by
    unfold decodedPeople
    rw [mapIdxFrom_length, List.length_map]
  have hilen0 : (decodedItems0 s).length = s.items.length := by
    unfold decodedItems0
    rw [mapIdxFrom_length, List.length_map]
  have hgd0 : ∀ k, k < s.items.length → (decodedItems0 s).getD k dummyItem =
      { id := 0 + k, name := (s.items.getD k dummyItem).name,
        price := (s.items.getD k dummyItem).price, personQuantities := [] } :=
    fun k hk => decode_items_getD s.items (fun it h => (hinames it h).1)
      (fun it h => (hinames it h).2.1) hprices 0 k hk
  by_cases hits : s.items = []
  · have hdi : decodedItems s = [] := by
      unfold decodedItems
      rw [if_pos hits]
    refine ⟨_, hload, hpmap, ?_, rfl, rfl, hplen, ?_, ?_⟩
    · show (decodedItems s).map _ = _
      rw [hdi, hits]
    · show (decodedItems s).length = _
      rw [hdi, hits]
    · intro k hk
      rw [hits] at hk
      simp at hk
  · by_cases hqe : encQuantities s = []
    · have hdi : decodedItems s = decodedItems0 s := by
        unfold decodedItems
        rw [if_neg hits, if_pos hqe]
      refine ⟨_, hload, hpmap, ?_, rfl, rfl, hplen, ?_, ?_⟩
      · show (decodedItems s).map _ = _
        rw [hdi]
        apply map_eq_of_getD _ dummyItem _ _ hilen0
        intro k hk
        rw [hgd0 k hk]
      · show (decodedItems s).length = _
        rw [hdi]
        exact hilen0
      · intro k hk j hj
        show pqLookup j ((decodedItems s).getD k dummyItem).personQuantities = _
        rw [hdi, hgd0 k hk]
        rw [encQuantities_nil s (fun it h e he => (hqtys it h e he).1) hqe k hk j hj]
        rfl
    · have hdi : decodedItems s = (encQuantities s).foldl
          (decodeQtyStep (decodedPeople s).length) (decodedItems0 s) := by
        unfold decodedItems
        rw [if_neg hits, if_neg hqe]
      have hfold := encItems_fold s.people s.items 0 (decodedItems0 s) hqtys
        (by rw [hilen0]; omega)
        (fun k hk => by simp only [Nat.zero_add]; rw [hgd0 k hk])
      rw [hplen] at hdi
      rw [show encQuantities s =
        (mapIdxFrom (fun i x => qtyTriples i x.personQuantities 0 s.people)
          0 s.items).flatten from rfl] at hdi
      refine ⟨_, hload, hpmap, ?_, rfl, rfl, hplen, ?_, ?_⟩
      · show (decodedItems s).map _ = _
        rw [hdi]
        apply map_eq_of_getD _ dummyItem _ _ (by rw [hfold.1, hilen0])
        intro k hk
        have h2 := hfold.2.2 k hk
        simp only [Nat.zero_add] at h2
        rw [h2, hgd0 k hk]
      · show (decodedItems s).length = _
        rw [hdi, hfold.1, hilen0]
      · intro k hk j hj
        show pqLookup j ((decodedItems s).getD k dummyItem).personQuantities = _
        rw [hdi]
        have h2 := hfold.2.2 k hk
        simp only [Nat.zero_add] at h2
        rw [h2, hgd0 k hk]
        dsimp only
        have hlkp := qtyPairs_lookup ((s.items.getD k dummyItem).personQuantities)
          (fun e he => (hqtys _ (getD_mem s.items dummyItem k hk) e he).1) s.people 0 j hj
        simp only [Nat.zero_add] at hlkp
        exact hlkp

theorem C3_witness :
    c3WitState.people ≠ [] ∧ 0 < c3WitState.tip ∧
    (∃ u, loadStateFromURL (generateShareableParams c3WitState) = some u ∧
      u.people.map Person.name = c3WitState.people.map Person.name ∧
      u.items.map (fun it => (it.name, it.price)) =
        c3WitState.items.map (fun it => (it.name, it.price)) ∧
      u.tax = c3WitState.tax ∧ u.tip = c3WitState.tip ∧
      u.people.length = c3WitState.people.length ∧
      u.items.length = c3WitState.items.length ∧
      (∀ k, k < c3WitState.items.length → ∀ j, j < c3WitState.people.length →
        pqLookup j (u.items.getD k dummyItem).personQuantities =
          pqLookup ((c3WitState.people.getD j dummyPerson).id)
            ((c3WitState.items.getD k dummyItem).personQuantities))) :=
  ⟨by decide, by decide,
    C3_url_roundtrip c3WitState (by decide) (by decide) (by decide)
      (by
        intro it hit
        rw [List.mem_singleton.mp hit]
        exact ⟨by norm_num, by norm_num [IsCent]⟩)
      (by
        intro it hit e he
        rw [List.mem_singleton.mp hit] at he
        rcases List.mem_cons.mp he with rfl | he
        · exact ⟨by norm_num, by norm_num [IsCent]⟩
        · rcases List.mem_singleton.mp he with rfl
          exact ⟨by norm_num, by norm_num [IsCent]⟩)
      ⟨by norm_num [c3WitState], by norm_num [c3WitState, IsCent]⟩
      ⟨by norm_num [c3WitState], by norm_num [c3WitState, IsCent]⟩⟩
